import Mathlib

/-!
# rmexif: removal of EXIF segments from a JPEG marker stream

A shallow embedding of `rmexif.c` (the byte-order reader `align16`, the segment
loop of `main` and the per-file driver) together with theorems about it.

Conventions of the embedding:

* a byte is a `Fin 256`; the input file is a `List Byte`; pointers into `data`
  are `Nat` offsets from its first byte (`end` is `data.length`);
* the C code never checks a declared length against the end of the buffer, so
  the loads it performs may fall outside `data`.  What such a load yields is a
  fact about the host, not about the file: it is the `beyond` field of `Host`;
* `memcpy` into `data_out` is an append to the list of bytes written; the C code
  never checks that the copy fits the allocation either, and the embedding
  records what is written, also when it is more than the input holds;
* 16-bit values are `Nat`s below `65536`;
* the two loops take a bound on the number of rounds as their first argument;
  `scanLoop_ne_timeout` and `scan_ne_timeout` show the bounds used are enough.
-/

namespace Rmexif

/-- One octet of the file. -/
abbrev Byte := Fin 256

/-! ## Constants of `rmexif.c` -/

def MARKER_SOI : Nat := 0xFFD8
def MARKER_SOF0 : Nat := 0xFFC0
def MARKER_SOF2 : Nat := 0xFFC2
def MARKER_DHT : Nat := 0xFFC4
def MARKER_DQT : Nat := 0xFFDB
def MARKER_DRI : Nat := 0xFFDD
def MARKER_SOS : Nat := 0xFFDA
def MARKER_RSTN : Nat := 0xFFD0
def MARKER_APPN : Nat := 0xFFE0
def MARKER_COM : Nat := 0xFFFE
def MARKER_EOI : Nat := 0xFFD9

/-- The array `EXIF_HEADER`: the characters `E x i f` and two NUL bytes. -/
def EXIF_HEADER : List Byte := [0x45, 0x78, 0x69, 0x66, 0x00, 0x00]

/-! ## The host -/

/-- What the behaviour of the C program depends on besides the file: the byte
order of the machine and the bytes that lie in memory outside the input buffer
(`beyond i` is the byte at offset `i` from the start of `data`, for offsets at or
after its end). -/
structure Host where
  littleEndian : Bool
  beyond : Nat → Byte

/-- The load `*(uint16_t *)ptr` of two bytes stored consecutively, `b0` first. -/
def load16 (littleEndian : Bool) (b0 b1 : Byte) : Nat :=
  if littleEndian then b1.val * 256 + b0.val else b0.val * 256 + b1.val

/-- Byte `xb[1]` of the 16-bit value `x` as the host stores it. -/
def secondByte (littleEndian : Bool) (x : Nat) : Nat :=
  if littleEndian then x / 256 % 256 else x % 256

/-- The function `align16`: swap the two bytes of `x` unless the second byte in
memory already is the low byte of `x`. -/
def align16 (littleEndian : Bool) (x : Nat) : Nat :=
  if secondByte littleEndian x ≠ x &&& 0xFF then
    (((x &&& 0xFF) <<< 8) ||| ((x &&& 0xFF00) >>> 8)) % 65536
  else x

/-! ## Memory reads -/

/-- The byte at offset `i` from `data`: a byte of the file inside the buffer,
whatever the host holds there outside it. -/
def rd (h : Host) (data : List Byte) (i : Nat) : Byte :=
  data.getD i (h.beyond i)

/-- The expression `align16(*(uint16_t *)ptr)`. -/
def rd16 (h : Host) (data : List Byte) (ptr : Nat) : Nat :=
  align16 h.littleEndian (load16 h.littleEndian (rd h data ptr) (rd h data (ptr + 1)))

/-- The bytes at offsets `a, a+1, ..., b-1`: what `memcpy` or `memcmp` reads from
`data + a` for a size of `b - a`. -/
def span (h : Host) (data : List Byte) (a b : Nat) : List Byte :=
  (List.range (b - a)).map (fun k => rd h data (a + k))

/-! ## The segment loop -/

/-- Markers of the first group of `case` labels: no payload. -/
def noPayloadMarkers : List Nat :=
  [MARKER_SOI, MARKER_RSTN, MARKER_RSTN + 1, MARKER_RSTN + 2, MARKER_RSTN + 3,
   MARKER_RSTN + 4, MARKER_RSTN + 5, MARKER_RSTN + 6, MARKER_RSTN + 7, MARKER_EOI]

/-- Markers of the second group of `case` labels: a length field follows. -/
def lengthMarkers : List Nat :=
  [MARKER_SOF0, MARKER_SOF2, MARKER_DHT, MARKER_DQT, MARKER_DRI, MARKER_APPN,
   MARKER_APPN + 2, MARKER_APPN + 3, MARKER_APPN + 4, MARKER_APPN + 5,
   MARKER_APPN + 6, MARKER_APPN + 7, MARKER_APPN + 8, MARKER_APPN + 9,
   MARKER_APPN + 10, MARKER_APPN + 11, MARKER_APPN + 12, MARKER_APPN + 13,
   MARKER_APPN + 14, MARKER_APPN + 15, MARKER_COM]

/-- The test on `maybe_marker` inside the `MARKER_SOS` case. -/
def foundMarker (maybe_marker : Nat) : Bool :=
  decide (maybe_marker > 0xFF00) && decide (maybe_marker &&& 0xFFF8 ≠ MARKER_RSTN)

/-- The inner `while (ptr < end)` loop of the `MARKER_SOS` case; the result is
the value of `ptr` when the loop is left.  Every round that does not leave the
loop increments `ptr`, so `data.length - ptr` rounds always suffice; the first
argument counts the rounds still allowed. -/
def sosScan (h : Host) (data : List Byte) : Nat → Nat → Nat
  | 0, ptr => ptr
  | fuel + 1, ptr =>
    if ptr < data.length then
      if data.length - ptr ≥ 2 ∧ foundMarker (rd16 h data ptr) = true then ptr
      else sosScan h data fuel (ptr + 1)
    else ptr

/-- How the `switch` of one loop round is left, with the value of `ptr` then. -/
inductive Seg where
  /-- Left by `break`: the copy at the bottom of the loop body runs. -/
  | brk (ptr : Nat)
  /-- Left by `continue`: the copy is skipped. -/
  | cont (ptr : Nat)
  /-- The `default` case: `goto error`. -/
  | err (marker : Nat)
deriving DecidableEq, Repr

/-- The `switch (marker)` of the loop round that starts at `old_ptr`. -/
def segment (h : Host) (data : List Byte) (old_ptr : Nat) : Seg :=
  let marker := rd16 h data old_ptr
  let ptr := old_ptr + 2
  if marker ∈ noPayloadMarkers then .brk ptr
  else if marker ∈ lengthMarkers then .brk (ptr + rd16 h data ptr)
  else if marker = MARKER_SOS then .brk (sosScan h data (data.length - ptr) ptr)
  else if marker = MARKER_APPN + 1 then
    let length := rd16 h data ptr
    if length < EXIF_HEADER.length then .cont (ptr + length)
    else if span h data (ptr + 2) (ptr + 2 + EXIF_HEADER.length) = EXIF_HEADER then
      .cont (ptr + length)
    else .brk (ptr + length)
  else .err marker

/-- Result of the segment loop. -/
inductive Result where
  /-- The loop was left normally, with the bytes written to `data_out` and the
  final value of `ptr`. -/
  | ok (out : List Byte) (ptr : Nat)
  /-- The loop was left by `goto error` on this marker. -/
  | unsupported (marker : Nat)
  /-- The round budget of the embedding ran out (never the case for `scan`). -/
  | timeout
deriving DecidableEq, Repr

/-- The loop `while (ptr <= end - 2)`, started at `ptr` with `out` already
written.  The first argument bounds the number of rounds. -/
def scanLoop (h : Host) (data : List Byte) : Nat → Nat → List Byte → Result
  | 0, _, _ => .timeout
  | fuel + 1, ptr, out =>
    if ptr + 2 ≤ data.length then
      match segment h data ptr with
      | .brk ptr' =>
        let out' := if ptr' > ptr then out ++ span h data ptr ptr' else out
        if rd16 h data ptr = MARKER_EOI then .ok out' ptr'
        else scanLoop h data fuel ptr' out'
      | .cont ptr' => scanLoop h data fuel ptr' out
      | .err marker => .unsupported marker
    else .ok out ptr

/-- The segment loop on a whole file.  Every round advances `ptr` by at least 2,
so at most `data.length / 2` rounds run the body and one more leaves the loop. -/
def scan (h : Host) (data : List Byte) : Result :=
  scanLoop h data (data.length / 2 + 1) 0 []

/-- The offsets at which the loop started at `ptr` reads a marker (the segment
boundaries it meets), in order. -/
def boundariesFrom (h : Host) (data : List Byte) : Nat → Nat → List Nat
  | 0, _ => []
  | fuel + 1, ptr =>
    if ptr + 2 ≤ data.length then
      ptr :: (match segment h data ptr with
        | .brk ptr' =>
          if rd16 h data ptr = MARKER_EOI then [] else boundariesFrom h data fuel ptr'
        | .cont ptr' => boundariesFrom h data fuel ptr'
        | .err _ => [])
    else []

/-- The segment boundaries met by `scan`. -/
def boundaries (h : Host) (data : List Byte) : List Nat :=
  boundariesFrom h data (data.length / 2 + 1) 0

/-! ## The per-file driver -/

/-- The files the program can open: contents by path. -/
abbrev FS := String → Option (List Byte)

/-- The effect of `fopen(path, "wb")`, `fwrite`, `fclose`. -/
def FS.write (fs : FS) (path : String) (bytes : List Byte) : FS :=
  fun p => if p = path then some bytes else fs p

/-- One round of the `for` loop of `main`: `none` is `goto error`, otherwise
the files afterwards.  A missing file fails at `fopen`; an empty one is skipped;
allocation, short reads and a failing `fopen` for writing are not modelled. -/
def processFile (h : Host) (fs : FS) (path : String) : Option FS :=
  match fs path with
  | none => none
  | some data =>
    if data.length = 0 then some fs
    else
      match scan h data with
      | .ok out _ => some (fs.write path out)
      | .unsupported _ => none
      | .timeout => none

/-- The `for` loop of `main` over the remaining arguments, with the exit status. -/
def mainLoop (h : Host) : FS → List String → FS × Nat
  | fs, [] => (fs, 0)
  | fs, path :: rest =>
    match processFile h fs path with
    | none => (fs, 1)
    | some fs' => mainLoop h fs' rest

/-- The function `main` on the arguments after the program name. -/
def main (h : Host) (fs : FS) (args : List String) : FS × Nat :=
  if args.length + 1 ≤ 1 then (fs, 1) else mainLoop h fs args

/-! ## Vocabulary of the claims -/

/-- Byte `i` of the buffer is `0xFF` and byte `i + 1` is in the buffer and is
neither `0x00` nor one of `0xD0 .. 0xD7`. -/
def markerAt (data : List Byte) (i : Nat) : Bool :=
  match data[i]?, data[i + 1]? with
  | some b0, some b1 =>
    decide (b0.val = 0xFF) && decide (b1.val ≠ 0x00) &&
      !(decide (0xD0 ≤ b1.val) && decide (b1.val ≤ 0xD7))
  | _, _ => false

/-- The marker values the claim calls recognized: SOI, RST0-RST7, EOI, SOF0,
SOF2, DHT, DQT, DRI, SOS, APP0-APP15, COM. -/
def recognizedMarkers : List Nat :=
  [0xFFD8, 0xFFD0, 0xFFD1, 0xFFD2, 0xFFD3, 0xFFD4, 0xFFD5, 0xFFD6, 0xFFD7, 0xFFD9,
   0xFFC0, 0xFFC2, 0xFFC4, 0xFFDB, 0xFFDD, 0xFFDA,
   0xFFE0, 0xFFE1, 0xFFE2, 0xFFE3, 0xFFE4, 0xFFE5, 0xFFE6, 0xFFE7,
   0xFFE8, 0xFFE9, 0xFFEA, 0xFFEB, 0xFFEC, 0xFFED, 0xFFEE, 0xFFEF, 0xFFFE]

/-- The round at `q` is one that drops an EXIF segment: the marker is APP1, the
declared length is at least the size of `EXIF_HEADER` and the six bytes after
the length field are `EXIF_HEADER`. -/
def isExifApp1 (h : Host) (data : List Byte) (q : Nat) : Bool :=
  decide (rd16 h data q = MARKER_APPN + 1) && decide (6 ≤ rd16 h data (q + 2)) &&
    decide (span h data (q + 4) (q + 10) = EXIF_HEADER)

/-- Sum of the span lengths (2 marker bytes + declared length) of the EXIF APP1
segments among the given boundaries. -/
def exifBytes (h : Host) (data : List Byte) (qs : List Nat) : Nat :=
  ((qs.filter (isExifApp1 h data)).map (fun q => 2 + rd16 h data (q + 2))).sum

/-- Sum of the span lengths of the EXIF APP1 segments `scan` removes. -/
def removedExifBytes (h : Host) (data : List Byte) : Nat :=
  exifBytes h data (boundaries h data)

/-- A little-endian host whose memory outside the buffer holds zeros. -/
def zeroHost : Host := ⟨true, fun _ => 0⟩

/-- A little-endian host whose memory outside the buffer holds the byte `01`. -/
def onesHost : Host := ⟨true, fun _ => 1⟩

/-- Two files for examples: `a.jpg` holds SOI, an EXIF APP1 segment and EOI;
`b.jpg` holds the unsupported marker `FF F0`. -/
def sampleFS : FS := fun p =>
  if p = "a.jpg" then
    some [0xFF, 0xD8, 0xFF, 0xE1, 0x00, 0x08, 0x45, 0x78, 0x69, 0x66, 0x00, 0x00, 0xFF, 0xD9]
  else if p = "b.jpg" then some [0xFF, 0xF0]
  else none

/-- What a file holds after it was processed without a fatal error: an empty file
is left alone, any other file holds the output of the segment loop. -/
def filterFile (h : Host) (content : Option (List Byte)) : Option (List Byte) :=
  match content with
  | none => none
  | some data =>
    if data.length = 0 then some data
    else
      match scan h data with
      | .ok out _ => some out
      | .unsupported _ => some data
      | .timeout => some data

/-- The files after each file of `paths` was processed without a fatal error. -/
def filtered (h : Host) (fs : FS) (paths : List String) : FS :=
  fun p => if p ∈ paths then filterFile h (fs p) else fs p

/-- A buffer for examples: a start-of-scan marker, a length field declaring a
scan header of 6 bytes that holds the pair `FF C4` at offset 5, two more bytes
and an EOI marker. -/
def sosSample : List Byte :=
  [0xFF, 0xDA, 0x00, 0x06, 0x01, 0xFF, 0xC4, 0x00, 0x11, 0x22, 0xFF, 0xD9]

/-! ## The marker stream as the specification describes it -/

/-- The two bytes of a 16-bit value, most significant first. -/
def be16 (x : Nat) : List Byte := [Fin.ofNat (x / 256), Fin.ofNat x]

/-- A run of entropy-coded bytes holds no marker: every `0xFF` in it is followed,
inside the run, by `0x00` or by one of `0xD0 .. 0xD7`. -/
def runFree : List Byte → Bool
  | [] => true
  | [b] => decide (b.val ≠ 0xFF)
  | b :: c :: rest =>
    (decide (b.val ≠ 0xFF) || decide (c.val = 0x00) ||
      (decide (0xD0 ≤ c.val) && decide (c.val ≤ 0xD7))) && runFree (c :: rest)

/-- A segment of the marker stream as the specification describes it, by shape:
a marker alone; a marker, a length field and a payload; a start-of-scan marker
and all the bytes up to the next marker (scan header and entropy-coded data);
an APP1 marker, a length field and a payload. -/
inductive Segment where
  | bare (marker : Nat)
  | sized (marker : Nat) (payload : List Byte)
  | scanRun (run : List Byte)
  | app1 (payload : List Byte)
deriving DecidableEq, Repr

/-- The bytes of a segment; a length field counts its own two bytes. -/
def Segment.bytes : Segment → List Byte
  | .bare marker => be16 marker
  | .sized marker payload => be16 marker ++ be16 (payload.length + 2) ++ payload
  | .scanRun run => be16 MARKER_SOS ++ run
  | .app1 payload => be16 (MARKER_APPN + 1) ++ be16 (payload.length + 2) ++ payload

/-- A complete segment of a recognized marker; an APP1 segment in addition has
a payload that begins with the EXIF signature (so its declared length is at
least 8). -/
def Segment.complete : Segment → Bool
  | .bare marker => decide (marker ∈ noPayloadMarkers)
  | .sized marker payload =>
    decide (marker ∈ lengthMarkers) && decide (payload.length + 2 < 65536)
  | .scanRun run => runFree run
  | .app1 payload =>
    decide (payload.length + 2 < 65536) && decide (payload.take 6 = EXIF_HEADER)

/-- Whether the segment is an APP1 segment. -/
def Segment.isApp1 : Segment → Bool
  | .app1 _ => true
  | _ => false

/-- The byte stream of a list of segments. -/
def stream (segs : List Segment) : List Byte := (segs.map Segment.bytes).flatten

/-- The rest of the stream begins with a marker that ends an entropy-coded run. -/
def startsMarker (t : List Byte) : Prop :=
  ∃ c t', t = 0xFF :: c :: t' ∧ c.val ≠ 0 ∧ ¬ (0xD0 ≤ c.val ∧ c.val ≤ 0xD7)

/-- Whether the segment is a restart marker. -/
def Segment.isRst : Segment → Bool
  | .bare marker => decide (MARKER_RSTN ≤ marker ∧ marker ≤ MARKER_RSTN + 7)
  | _ => false

/-! ## Reading 16-bit values -/

theorem and_ff (x : Nat) : x &&& 0xFF = x % 256 :=
  Nat.and_pow_two_sub_one_eq_mod x 8

theorem and_ff00_shift (x : Nat) : (x &&& 0xFF00) >>> 8 = x / 256 % 256 := by
  have e : ∀ y : Nat, y >>> 8 = y / 2 / 2 / 2 / 2 / 2 / 2 / 2 / 2 := by
    intro y; rw [Nat.shiftRight_eq_div_pow]; omega
  rw [e, Nat.and_div_two, Nat.and_div_two, Nat.and_div_two, Nat.and_div_two,
    Nat.and_div_two, Nat.and_div_two, Nat.and_div_two, Nat.and_div_two]
  have c : (0xFF00 : Nat) / 2 / 2 / 2 / 2 / 2 / 2 / 2 / 2 = 0xFF := by decide
  rw [c, and_ff]; omega

theorem shl8_or (a b : Nat) (hb : b < 256) : (a <<< 8) ||| b = a * 256 + b := by
  have e := Nat.mul_add_lt_is_or (i := 8) (b := b) (by simpa using hb) a
  rw [Nat.shiftLeft_eq, Nat.mul_comm a, ← e]

theorem align16_swap (le : Bool) (a b : Nat) (ha : a < 256) (hb : b < 256) :
    align16 le (if le then b * 256 + a else a * 256 + b) = a * 256 + b := by
  unfold align16 secondByte
  simp only [and_ff, and_ff00_shift]
  cases le
  · simp only [Bool.false_eq_true, if_false]
    have : (a * 256 + b) % 256 = b := by omega
    simp [this]
  · simp only [if_true]
    have h1 : (b * 256 + a) % 256 = a := by omega
    have h2 : (b * 256 + a) / 256 % 256 = b := by omega
    rw [h1, h2, shl8_or a b hb]
    split
    · omega
    · rename_i hne
      have : b = a := by simpa using hne
      subst this; rfl

theorem align16_load16 (le : Bool) (b0 b1 : Byte) :
    align16 le (load16 le b0 b1) = b0.val * 256 + b1.val :=
  align16_swap le b0.val b1.val b0.isLt b1.isLt

theorem rd16_eq (h : Host) (data : List Byte) (p : Nat) :
    rd16 h data p = (rd h data p).val * 256 + (rd h data (p + 1)).val :=
  align16_load16 _ _ _

set_option maxRecDepth 100000 in
theorem foundMarker_aux : ∀ b, b < 256 →
    (foundMarker (0xFF00 + b) = true ↔ b ≠ 0 ∧ ¬ (0xD0 ≤ b ∧ b ≤ 0xD7)) := by
  decide

/-! ## Reads and copied spans -/

theorem rd_of_lt (h : Host) (data : List Byte) {i : Nat} (hi : i < data.length) :
    rd h data i = data[i] := by
  simp [rd, List.getD_eq_getElem?_getD, List.getElem?_eq_getElem hi]

theorem span_length (h : Host) (data : List Byte) (a b : Nat) :
    (span h data a b).length = b - a := by
  simp [span]

theorem span_append (h : Host) (data : List Byte) {a b c : Nat} (hab : a ≤ b) (hbc : b ≤ c) :
    span h data a b ++ span h data b c = span h data a c := by
  apply List.ext_getElem
  · simp [span_length]; omega
  · intro i h1 h2
    simp only [span_length, List.length_append] at h1 h2
    by_cases hi : i < b - a
    · rw [List.getElem_append_left (by simpa [span_length] using hi)]
      simp [span]
    · rw [List.getElem_append_right (by simpa [span_length] using hi)]
      simp only [span, List.getElem_map, List.getElem_range, List.length_map, List.length_range]
      congr 1; omega

theorem span_eq_take_drop (h : Host) (data : List Byte) {a b : Nat} (hb : b ≤ data.length) :
    span h data a b = (data.drop a).take (b - a) := by
  apply List.ext_getElem
  · simp [span_length]; omega
  · intro i h1 h2
    simp only [span_length] at h1
    simp only [span, List.getElem_map, List.getElem_range, List.getElem_take, List.getElem_drop]
    exact rd_of_lt h data (by omega)

theorem span_self (h : Host) (data : List Byte) (a : Nat) : span h data a a = [] := by
  simp [span]

/-! ## One round of the loop, and the round budget -/

theorem sosScan_ge (h : Host) (data : List Byte) (fuel ptr : Nat) :
    ptr ≤ sosScan h data fuel ptr := by
  induction fuel generalizing ptr with
  | zero => simp [sosScan]
  | succ f ih =>
    simp only [sosScan]
    split
    · split
      · exact Nat.le_refl _
      · exact Nat.le_trans (Nat.le_succ _) (ih (ptr + 1))
    · exact Nat.le_refl _

theorem sosScan_le (h : Host) (data : List Byte) (fuel ptr : Nat) (hp : ptr ≤ data.length) :
    sosScan h data fuel ptr ≤ data.length := by
  induction fuel generalizing ptr with
  | zero => simpa [sosScan] using hp
  | succ f ih =>
    simp only [sosScan]
    split
    · split
      · exact hp
      · exact ih (ptr + 1) (by omega)
    · exact hp

/-- The ways the `switch` can go, by marker. -/
theorem segment_cases (h : Host) (data : List Byte) (old : Nat) :
    (rd16 h data old ∈ noPayloadMarkers ∧ segment h data old = .brk (old + 2)) ∨
    (rd16 h data old ∈ lengthMarkers ∧
      segment h data old = .brk (old + 2 + rd16 h data (old + 2))) ∨
    (rd16 h data old = MARKER_SOS ∧
      segment h data old = .brk (sosScan h data (data.length - (old + 2)) (old + 2))) ∨
    (rd16 h data old = MARKER_APPN + 1 ∧ rd16 h data (old + 2) < 6 ∧
      segment h data old = .cont (old + 2 + rd16 h data (old + 2))) ∨
    (rd16 h data old = MARKER_APPN + 1 ∧ 6 ≤ rd16 h data (old + 2) ∧
      span h data (old + 4) (old + 10) = EXIF_HEADER ∧
      segment h data old = .cont (old + 2 + rd16 h data (old + 2))) ∨
    (rd16 h data old = MARKER_APPN + 1 ∧ 6 ≤ rd16 h data (old + 2) ∧
      span h data (old + 4) (old + 10) ≠ EXIF_HEADER ∧
      segment h data old = .brk (old + 2 + rd16 h data (old + 2))) ∨
    (rd16 h data old ∉ noPayloadMarkers ∧ rd16 h data old ∉ lengthMarkers ∧
      rd16 h data old ≠ MARKER_SOS ∧ rd16 h data old ≠ MARKER_APPN + 1 ∧
      segment h data old = .err (rd16 h data old)) := by
  have hlen : EXIF_HEADER.length = 6 := rfl
  unfold segment
  simp only [hlen]
  by_cases h1 : rd16 h data old ∈ noPayloadMarkers
  · left; simp [h1]
  · by_cases h2 : rd16 h data old ∈ lengthMarkers
    · right; left; simp [h1, h2]
    · by_cases h3 : rd16 h data old = MARKER_SOS
      · right; right; left
        refine ⟨h3, ?_⟩
        rw [if_neg h1, if_neg h2, if_pos h3]
      · by_cases h4 : rd16 h data old = MARKER_APPN + 1
        · rw [if_neg h1, if_neg h2, if_neg h3, if_pos h4]
          by_cases h5 : rd16 h data (old + 2) < 6
          · right; right; right; left
            exact ⟨h4, h5, by rw [if_pos h5]⟩
          · by_cases h6 : span h data (old + 4) (old + 10) = EXIF_HEADER
            · right; right; right; right; left
              refine ⟨h4, by omega, h6, ?_⟩
              rw [if_neg h5, if_pos h6]
            · right; right; right; right; right; left
              refine ⟨h4, by omega, h6, ?_⟩
              rw [if_neg h5, if_neg h6]
        · right; right; right; right; right; right
          refine ⟨h1, h2, h3, h4, ?_⟩
          rw [if_neg h1, if_neg h2, if_neg h3, if_neg h4]

theorem segment_brk_gt (h : Host) (data : List Byte) {old p : Nat}
    (hs : segment h data old = .brk p) : old + 2 ≤ p := by
  rcases segment_cases h data old with c | c | c | c | c | c | c
  · rw [c.2] at hs; cases hs; omega
  · rw [c.2] at hs; cases hs; omega
  · rw [c.2] at hs; cases hs; exact sosScan_ge _ _ _ _
  · rw [c.2.2] at hs; cases hs
  · rw [c.2.2.2] at hs; cases hs
  · rw [c.2.2.2] at hs; cases hs; omega
  · rw [c.2.2.2.2] at hs; cases hs

theorem segment_cont_gt (h : Host) (data : List Byte) {old p : Nat}
    (hs : segment h data old = .cont p) : old + 2 ≤ p := by
  rcases segment_cases h data old with c | c | c | c | c | c | c
  · rw [c.2] at hs; cases hs
  · rw [c.2] at hs; cases hs
  · rw [c.2] at hs; cases hs
  · rw [c.2.2] at hs; cases hs; omega
  · rw [c.2.2.2] at hs; cases hs; omega
  · rw [c.2.2.2] at hs; cases hs
  · rw [c.2.2.2.2] at hs; cases hs

/-- One round of the loop, when the `switch` is left by `break`. -/
theorem scanLoop_brk (h : Host) (data : List Byte) (fuel : Nat) {old p : Nat} (out : List Byte)
    (hin : old + 2 ≤ data.length) (hs : segment h data old = .brk p) :
    scanLoop h data (fuel + 1) old out =
      if rd16 h data old = MARKER_EOI then .ok (out ++ span h data old p) p
      else scanLoop h data fuel p (out ++ span h data old p) := by
  have hp := segment_brk_gt h data hs
  have hgt : p > old := by omega
  simp only [scanLoop, if_pos hin, hs, if_pos hgt]

theorem scanLoop_cont (h : Host) (data : List Byte) (fuel : Nat) {old p : Nat} (out : List Byte)
    (hin : old + 2 ≤ data.length) (hs : segment h data old = .cont p) :
    scanLoop h data (fuel + 1) old out = scanLoop h data fuel p out := by
  simp only [scanLoop, if_pos hin, hs]

theorem scanLoop_err (h : Host) (data : List Byte) (fuel : Nat) {old m : Nat} (out : List Byte)
    (hin : old + 2 ≤ data.length) (hs : segment h data old = .err m) :
    scanLoop h data (fuel + 1) old out = .unsupported m := by
  simp only [scanLoop, if_pos hin, hs]

theorem scanLoop_exit (h : Host) (data : List Byte) (fuel : Nat) {ptr : Nat} (out : List Byte)
    (hin : ¬ ptr + 2 ≤ data.length) :
    scanLoop h data (fuel + 1) ptr out = .ok out ptr := by
  simp only [scanLoop, if_neg hin]

/-- Enough rounds: the loop started at `ptr` never exhausts a budget of more
than `(data.length - ptr) / 2` rounds. -/
theorem scanLoop_ne_timeout (h : Host) (data : List Byte) (fuel ptr : Nat) (out : List Byte)
    (h0 : 0 < fuel) (hf : data.length < ptr + 2 * fuel) :
    scanLoop h data fuel ptr out ≠ .timeout := by
  induction fuel generalizing ptr out with
  | zero => omega
  | succ f ih =>
    by_cases hin : ptr + 2 ≤ data.length
    · cases hs : segment h data ptr with
      | brk p =>
        rw [scanLoop_brk h data f out hin hs]
        have := segment_brk_gt h data hs
        split
        · simp
        · exact ih _ _ (by omega) (by omega)
      | cont p =>
        rw [scanLoop_cont h data f out hin hs]
        have := segment_cont_gt h data hs
        exact ih _ _ (by omega) (by omega)
      | err m => rw [scanLoop_err h data f out hin hs]; simp
    · rw [scanLoop_exit h data f out hin]; simp

theorem scanLoop_fuel_succ (h : Host) (data : List Byte) (fuel ptr : Nat) (out : List Byte)
    (hne : scanLoop h data fuel ptr out ≠ .timeout) :
    scanLoop h data (fuel + 1) ptr out = scanLoop h data fuel ptr out := by
  induction fuel generalizing ptr out with
  | zero => simp [scanLoop] at hne
  | succ f ih =>
    by_cases hin : ptr + 2 ≤ data.length
    · cases hs : segment h data ptr with
      | brk p =>
        rw [scanLoop_brk h data f out hin hs] at hne
        rw [scanLoop_brk h data (f + 1) out hin hs, scanLoop_brk h data f out hin hs]
        split
        · rfl
        · rename_i hm; rw [if_neg hm] at hne; exact ih _ _ hne
      | cont p =>
        rw [scanLoop_cont h data f out hin hs] at hne
        rw [scanLoop_cont h data (f + 1) out hin hs, scanLoop_cont h data f out hin hs]
        exact ih _ _ hne
      | err m =>
        rw [scanLoop_err h data (f + 1) out hin hs, scanLoop_err h data f out hin hs]
    · rw [scanLoop_exit h data (f + 1) out hin, scanLoop_exit h data f out hin]

theorem scanLoop_fuel_add (h : Host) (data : List Byte) (fuel k ptr : Nat) (out : List Byte)
    (hne : scanLoop h data fuel ptr out ≠ .timeout) :
    scanLoop h data (fuel + k) ptr out = scanLoop h data fuel ptr out := by
  induction k with
  | zero => rfl
  | succ k ih =>
    rw [← Nat.add_assoc, scanLoop_fuel_succ h data (fuel + k) ptr out (by rw [ih]; exact hne), ih]

/-- Two budgets that both suffice give the same result. -/
theorem scanLoop_fuel_irrelevant (h : Host) (data : List Byte) (f1 f2 ptr : Nat)
    (out : List Byte) (h1 : scanLoop h data f1 ptr out ≠ .timeout)
    (h2 : scanLoop h data f2 ptr out ≠ .timeout) :
    scanLoop h data f1 ptr out = scanLoop h data f2 ptr out := by
  rcases Nat.le_total f1 f2 with hle | hle
  · obtain ⟨k, rfl⟩ := Nat.exists_eq_add_of_le hle
    exact (scanLoop_fuel_add h data f1 k ptr out h1).symm
  · obtain ⟨k, rfl⟩ := Nat.exists_eq_add_of_le hle
    exact scanLoop_fuel_add h data f2 k ptr out h2

theorem scan_ne_timeout (h : Host) (data : List Byte) : scan h data ≠ .timeout :=
  scanLoop_ne_timeout h data _ 0 [] (by omega) (by omega)

/-- A budget that suffices gives the result of `scan`. -/
theorem scan_eq_of_scanLoop (h : Host) (data : List Byte) (fuel : Nat) {out : List Byte}
    {p : Nat} (hs : scanLoop h data fuel 0 [] = .ok out p) : scan h data = .ok out p := by
  rw [← hs]
  exact scanLoop_fuel_irrelevant h data _ _ 0 [] (scan_ne_timeout h data) (by rw [hs]; simp)

/-! ## The entropy-coded run -/

theorem foundMarker_iff (b0 b1 : Byte) :
    foundMarker (b0.val * 256 + b1.val) = true ↔
      b0.val = 0xFF ∧ b1.val ≠ 0 ∧ ¬ (0xD0 ≤ b1.val ∧ b1.val ≤ 0xD7) := by
  by_cases hb : b0.val = 0xFF
  · have e : b0.val * 256 + b1.val = 0xFF00 + b1.val := by omega
    rw [e, foundMarker_aux b1.val b1.isLt]
    simp [hb]
  · have hlt : ¬ (b0.val * 256 + b1.val > 0xFF00) := by omega
    simp [foundMarker, hlt, hb]

theorem foundMarker_rd16 (h : Host) (data : List Byte) {i : Nat} (hi : i + 2 ≤ data.length) :
    foundMarker (rd16 h data i) = markerAt data i := by
  have h0 : i < data.length := by omega
  have h1 : i + 1 < data.length := by omega
  rw [Bool.eq_iff_iff, rd16_eq, foundMarker_iff, rd_of_lt h data h0, rd_of_lt h data h1]
  simp [markerAt, List.getElem?_eq_getElem h0, List.getElem?_eq_getElem h1, and_assoc]
  intro _ _; omega

theorem markerAt_false_of_end (data : List Byte) {i : Nat} (hi : data.length ≤ i + 1) :
    markerAt data i = false := by
  have : data[i + 1]? = none := List.getElem?_eq_none (by omega)
  simp only [markerAt, this]
  split <;> simp_all

/-- The inner loop stops at the first marker candidate at or after `ptr`, or at
the end of the buffer. -/
theorem sosScan_spec (h : Host) (data : List Byte) (fuel ptr : Nat)
    (hf : data.length - ptr ≤ fuel) (hp : ptr ≤ data.length) :
    (∀ j, ptr ≤ j → j < sosScan h data fuel ptr → markerAt data j = false) ∧
    (markerAt data (sosScan h data fuel ptr) = true ∨ sosScan h data fuel ptr = data.length) := by
  induction fuel generalizing ptr with
  | zero =>
    have : ptr = data.length := by omega
    subst this; simp only [sosScan]
    exact ⟨fun j h1 h2 => absurd h2 (by omega), Or.inr trivial⟩
  | succ f ih =>
    simp only [sosScan]
    by_cases hlt : ptr < data.length
    · rw [if_pos hlt]
      by_cases h2 : data.length - ptr ≥ 2
      · have hfm := foundMarker_rd16 h data (i := ptr) (by omega)
        by_cases hm : markerAt data ptr = true
        · rw [if_pos ⟨h2, by rw [hfm]; exact hm⟩]
          exact ⟨fun j h1 h2 => absurd h2 (by omega), Or.inl hm⟩
        · rw [if_neg (by rw [hfm]; exact fun c => hm c.2)]
          obtain ⟨a, b⟩ := ih (ptr + 1) (by omega) (by omega)
          refine ⟨fun j h1 h2 => ?_, b⟩
          by_cases hj : j = ptr
          · subst hj; simpa using hm
          · exact a j (by omega) h2
      · rw [if_neg (fun c => h2 c.1)]
        obtain ⟨a, b⟩ := ih (ptr + 1) (by omega) (by omega)
        refine ⟨fun j h1 h2 => ?_, b⟩
        by_cases hj : j = ptr
        · subst hj; exact markerAt_false_of_end data (by omega)
        · exact a j (by omega) h2
    · rw [if_neg hlt]
      exact ⟨fun j h1 h2 => absurd h2 (by omega), Or.inr (by omega)⟩

/-! ## Invariants of the loop -/

theorem boundariesFrom_brk (h : Host) (data : List Byte) (fuel : Nat) {old p : Nat}
    (hin : old + 2 ≤ data.length) (hs : segment h data old = .brk p) :
    boundariesFrom h data (fuel + 1) old =
      old :: (if rd16 h data old = MARKER_EOI then [] else boundariesFrom h data fuel p) := by
  simp only [boundariesFrom, if_pos hin, hs]

theorem boundariesFrom_cont (h : Host) (data : List Byte) (fuel : Nat) {old p : Nat}
    (hin : old + 2 ≤ data.length) (hs : segment h data old = .cont p) :
    boundariesFrom h data (fuel + 1) old = old :: boundariesFrom h data fuel p := by
  simp only [boundariesFrom, if_pos hin, hs]

theorem boundariesFrom_err (h : Host) (data : List Byte) (fuel : Nat) {old m : Nat}
    (hin : old + 2 ≤ data.length) (hs : segment h data old = .err m) :
    boundariesFrom h data (fuel + 1) old = [old] := by
  simp only [boundariesFrom, if_pos hin, hs]

theorem boundariesFrom_exit (h : Host) (data : List Byte) (fuel : Nat) {ptr : Nat}
    (hin : ¬ ptr + 2 ≤ data.length) : boundariesFrom h data (fuel + 1) ptr = [] := by
  simp only [boundariesFrom, if_neg hin]

theorem boundariesFrom_ge (h : Host) (data : List Byte) (fuel ptr q : Nat)
    (hq : q ∈ boundariesFrom h data fuel ptr) : ptr ≤ q ∧ q + 2 ≤ data.length := by
  induction fuel generalizing ptr with
  | zero => simp [boundariesFrom] at hq
  | succ f ih =>
    by_cases hin : ptr + 2 ≤ data.length
    · cases hs : segment h data ptr with
      | brk p =>
        rw [boundariesFrom_brk h data f hin hs] at hq
        have := segment_brk_gt h data hs
        rcases List.mem_cons.1 hq with e | e
        · subst e; exact ⟨Nat.le_refl _, hin⟩
        · split at e
          · simp at e
          · have := ih _ e; omega
      | cont p =>
        rw [boundariesFrom_cont h data f hin hs] at hq
        have := segment_cont_gt h data hs
        rcases List.mem_cons.1 hq with e | e
        · subst e; exact ⟨Nat.le_refl _, hin⟩
        · have := ih _ e; omega
      | err m =>
        rw [boundariesFrom_err h data f hin hs] at hq
        simp at hq; subst hq; exact ⟨Nat.le_refl _, hin⟩
    · rw [boundariesFrom_exit h data f hin] at hq; simp at hq

theorem segment_cont_app1 (h : Host) (data : List Byte) {old p : Nat}
    (hs : segment h data old = .cont p) :
    rd16 h data old = MARKER_APPN + 1 ∧ p = old + 2 + rd16 h data (old + 2) ∧
      (6 ≤ rd16 h data (old + 2) → isExifApp1 h data old = true) := by
  rcases segment_cases h data old with c | c | c | c | c | c | c
  · rw [c.2] at hs; cases hs
  · rw [c.2] at hs; cases hs
  · rw [c.2] at hs; cases hs
  · rw [c.2.2] at hs; cases hs; exact ⟨c.1, rfl, fun h6 => absurd c.2.1 (by omega)⟩
  · rw [c.2.2.2] at hs; cases hs
    exact ⟨c.1, rfl, fun _ => by simp [isExifApp1, c.1, c.2.1, c.2.2.1]⟩
  · rw [c.2.2.2] at hs; cases hs
  · rw [c.2.2.2.2] at hs; cases hs

theorem segment_brk_not_exif (h : Host) (data : List Byte) {old p : Nat}
    (hs : segment h data old = .brk p) : isExifApp1 h data old = false := by
  rcases segment_cases h data old with c | c | c | c | c | c | c
  · have : rd16 h data old ≠ MARKER_APPN + 1 := by
      intro e; rw [e] at c; exact absurd c.1 (by decide)
    simp [isExifApp1, this]
  · have : rd16 h data old ≠ MARKER_APPN + 1 := by
      intro e; rw [e] at c; exact absurd c.1 (by decide)
    simp [isExifApp1, this]
  · have : rd16 h data old ≠ MARKER_APPN + 1 := by
      intro e; rw [e] at c; exact absurd c.1 (by decide)
    simp [isExifApp1, this]
  · rw [c.2.2] at hs; cases hs
  · rw [c.2.2.2] at hs; cases hs
  · simp [isExifApp1, c.2.2.1]
  · rw [c.2.2.2.2] at hs; cases hs

/-- With no APP1 marker at a boundary, the loop appends exactly the bytes it
walks over. -/
theorem scanLoop_no_app1 (h : Host) (data : List Byte) (fuel ptr : Nat) (out out' : List Byte)
    (p : Nat) (hs : scanLoop h data fuel ptr out = .ok out' p)
    (hno : ∀ q ∈ boundariesFrom h data fuel ptr, rd16 h data q ≠ MARKER_APPN + 1) :
    ptr ≤ p ∧ out' = out ++ span h data ptr p := by
  induction fuel generalizing ptr out with
  | zero => simp [scanLoop] at hs
  | succ f ih =>
    by_cases hin : ptr + 2 ≤ data.length
    · cases hseg : segment h data ptr with
      | brk p1 =>
        have hgt := segment_brk_gt h data hseg
        rw [scanLoop_brk h data f out hin hseg] at hs
        rw [boundariesFrom_brk h data f hin hseg] at hno
        by_cases he : rd16 h data ptr = MARKER_EOI
        · rw [if_pos he] at hs; cases hs
          exact ⟨by omega, rfl⟩
        · rw [if_neg he] at hs
          rw [if_neg he] at hno
          obtain ⟨a, b⟩ := ih _ _ hs (fun q hq => hno q (List.mem_cons_of_mem _ hq))
          refine ⟨by omega, ?_⟩
          rw [b, List.append_assoc, span_append h data (by omega) a]
      | cont p1 =>
        exact absurd (segment_cont_app1 h data hseg).1
          (hno ptr (by rw [boundariesFrom_cont h data f hin hseg]; exact List.mem_cons_self _ _))
      | err m => rw [scanLoop_err h data f out hin hseg] at hs; cases hs
    · rw [scanLoop_exit h data f out hin] at hs; cases hs
      exact ⟨Nat.le_refl _, by simp [span_self]⟩

/-- Byte count of the loop: what it walks over is what it writes plus the EXIF
segments it drops, when no APP1 segment with a declared length below 6 is met. -/
theorem scanLoop_count (h : Host) (data : List Byte) (fuel ptr : Nat) (out out' : List Byte)
    (p : Nat) (hs : scanLoop h data fuel ptr out = .ok out' p)
    (hlen : ∀ q ∈ boundariesFrom h data fuel ptr,
      rd16 h data q = MARKER_APPN + 1 → 6 ≤ rd16 h data (q + 2)) :
    ptr ≤ p ∧
      out'.length + exifBytes h data (boundariesFrom h data fuel ptr) = out.length + (p - ptr) := by
  induction fuel generalizing ptr out with
  | zero => simp [scanLoop] at hs
  | succ f ih =>
    by_cases hin : ptr + 2 ≤ data.length
    · cases hseg : segment h data ptr with
      | brk p1 =>
        have hgt := segment_brk_gt h data hseg
        have hne := segment_brk_not_exif h data hseg
        rw [scanLoop_brk h data f out hin hseg] at hs
        rw [boundariesFrom_brk h data f hin hseg] at hlen ⊢
        by_cases he : rd16 h data ptr = MARKER_EOI
        · rw [if_pos he] at hs; cases hs
          refine ⟨by omega, ?_⟩
          simp [exifBytes, he, hne, span_length]
        · rw [if_neg he] at hs
          rw [if_neg he] at hlen ⊢
          obtain ⟨a, b⟩ := ih _ _ hs (fun q hq => hlen q (List.mem_cons_of_mem _ hq))
          refine ⟨by omega, ?_⟩
          simp only [exifBytes, List.filter_cons, hne] at b ⊢
          simp only [List.length_append, span_length] at b
          simp only [Bool.false_eq_true, if_false]
          omega
      | cont p1 =>
        have hgt := segment_cont_gt h data hseg
        obtain ⟨c1, c2, c3⟩ := segment_cont_app1 h data hseg
        rw [scanLoop_cont h data f out hin hseg] at hs
        rw [boundariesFrom_cont h data f hin hseg] at hlen ⊢
        have hex := c3 (hlen ptr (List.mem_cons_self _ _) c1)
        obtain ⟨a, b⟩ := ih _ _ hs (fun q hq => hlen q (List.mem_cons_of_mem _ hq))
        refine ⟨by omega, ?_⟩
        simp only [exifBytes, List.filter_cons, hex, if_true, List.map_cons, List.sum_cons] at b ⊢
        omega
      | err m => rw [scanLoop_err h data f out hin hseg] at hs; cases hs
    · rw [scanLoop_exit h data f out hin] at hs; cases hs
      rw [boundariesFrom_exit h data f hin]
      exact ⟨Nat.le_refl _, by simp [exifBytes]⟩

theorem mem_recognizedMarkers (m : Nat) :
    m ∈ recognizedMarkers ↔
      m ∈ noPayloadMarkers ∨ m ∈ lengthMarkers ∨ m = MARKER_SOS ∨ m = MARKER_APPN + 1 := by
  simp only [recognizedMarkers, noPayloadMarkers, lengthMarkers, MARKER_SOI, MARKER_RSTN,
    MARKER_EOI, MARKER_SOF0, MARKER_SOF2, MARKER_DHT, MARKER_DQT, MARKER_DRI, MARKER_APPN,
    MARKER_COM, MARKER_SOS, List.mem_cons, List.mem_singleton, List.not_mem_nil, or_false]
  omega

/-- An unrecognized marker at a boundary makes the loop leave by `goto error`. -/
theorem scanLoop_unsupported (h : Host) (data : List Byte) (fuel ptr q : Nat) (out : List Byte)
    (hq : q ∈ boundariesFrom h data fuel ptr) (hm : rd16 h data q ∉ recognizedMarkers) :
    scanLoop h data fuel ptr out = .unsupported (rd16 h data q) := by
  have hm' := fun c => hm ((mem_recognizedMarkers _).2 c)
  have key : segment h data q = .err (rd16 h data q) := by
    rcases segment_cases h data q with c | c | c | c | c | c | c
    · exact absurd (Or.inl c.1) hm'
    · exact absurd (Or.inr (Or.inl c.1)) hm'
    · exact absurd (Or.inr (Or.inr (Or.inl c.1))) hm'
    · exact absurd (Or.inr (Or.inr (Or.inr c.1))) hm'
    · exact absurd (Or.inr (Or.inr (Or.inr c.1))) hm'
    · exact absurd (Or.inr (Or.inr (Or.inr c.1))) hm'
    · exact c.2.2.2.2
  induction fuel generalizing ptr out with
  | zero => simp [boundariesFrom] at hq
  | succ f ih =>
    by_cases hin : ptr + 2 ≤ data.length
    · cases hseg : segment h data ptr with
      | brk p1 =>
        rw [boundariesFrom_brk h data f hin hseg] at hq
        rw [scanLoop_brk h data f out hin hseg]
        rcases List.mem_cons.1 hq with e | e
        · subst e; rw [key] at hseg; cases hseg
        · split at e
          · simp at e
          · rename_i he; rw [if_neg he]; exact ih _ _ e
      | cont p1 =>
        rw [boundariesFrom_cont h data f hin hseg] at hq
        rw [scanLoop_cont h data f out hin hseg]
        rcases List.mem_cons.1 hq with e | e
        · subst e; rw [key] at hseg; cases hseg
        · exact ih _ _ e
      | err m =>
        rw [boundariesFrom_err h data f hin hseg] at hq
        rw [scanLoop_err h data f out hin hseg]
        simp at hq; subst hq; rw [key] at hseg; cases hseg; rfl
    · rw [boundariesFrom_exit h data f hin] at hq; simp at hq

/-! ## Buffers that agree on an initial part -/

theorem rd16_congr {h h' : Host} {data data' : List Byte} {m : Nat}
    (hag : ∀ i, i < m → rd h' data' i = rd h data i) {i : Nat} (hi : i + 2 ≤ m) :
    rd16 h' data' i = rd16 h data i := by
  rw [rd16_eq, rd16_eq, hag i (by omega), hag (i + 1) (by omega)]

theorem span_congr {h h' : Host} {data data' : List Byte} {m : Nat}
    (hag : ∀ i, i < m → rd h' data' i = rd h data i) {a b : Nat} (hb : b ≤ m) :
    span h' data' a b = span h data a b := by
  unfold span
  apply List.map_congr_left
  intro k hk
  exact hag _ (by have := List.mem_range.1 hk; omega)

/-- The inner loop gives the same result on two buffers that agree up to two
bytes past the place where it stops. -/
theorem sosScan_congr {h h' : Host} {data data' : List Byte} {m : Nat}
    (hag : ∀ i, i < m → rd h' data' i = rd h data i)
    (hn : m ≤ data.length) (hn' : m ≤ data'.length) {ptr : Nat}
    (hstop : sosScan h data (data.length - ptr) ptr + 2 ≤ m) (hp : ptr ≤ data.length) :
    sosScan h' data' (data'.length - ptr) ptr = sosScan h data (data.length - ptr) ptr := by
  have hge := sosScan_ge h data (data.length - ptr) ptr
  have hp' : ptr ≤ data'.length := by omega
  have hge' := sosScan_ge h' data' (data'.length - ptr) ptr
  obtain ⟨a, b⟩ := sosScan_spec h data (data.length - ptr) ptr (Nat.le_refl _) hp
  obtain ⟨a', b'⟩ := sosScan_spec h' data' (data'.length - ptr) ptr (Nat.le_refl _) hp'
  have hmk : ∀ j, j + 2 ≤ m → markerAt data' j = markerAt data j := by
    intro j hj
    rw [← foundMarker_rd16 h data (by omega), ← foundMarker_rd16 h' data' (by omega),
      rd16_congr hag hj]
  generalize sosScan h data (data.length - ptr) ptr = i at *
  generalize sosScan h' data' (data'.length - ptr) ptr = i' at *
  have hi : markerAt data i = true := by
    rcases b with b | b
    · exact b
    · omega
  rcases Nat.lt_trichotomy i' i with c | c | c
  · have hf := a i' hge' c
    rcases b' with b' | b'
    · rw [hmk i' (by omega)] at b'; rw [hf] at b'; cases b'
    · omega
  · exact c
  · have hf := a' i hge c
    rw [hmk i hstop, hi] at hf; cases hf

theorem segment_congr {h h' : Host} {data data' : List Byte} {old : Nat}
    (hm : rd16 h' data' old = rd16 h data old)
    (hlen : rd16 h data old ∈ lengthMarkers ∨ rd16 h data old = MARKER_APPN + 1 →
      rd16 h' data' (old + 2) = rd16 h data (old + 2))
    (hsos : rd16 h data old = MARKER_SOS →
      sosScan h' data' (data'.length - (old + 2)) (old + 2) =
        sosScan h data (data.length - (old + 2)) (old + 2))
    (hsig : rd16 h data old = MARKER_APPN + 1 → 6 ≤ rd16 h data (old + 2) →
      span h' data' (old + 4) (old + 10) = span h data (old + 4) (old + 10)) :
    segment h' data' old = segment h data old := by
  have hl : EXIF_HEADER.length = 6 := rfl
  unfold segment
  simp only [hm, hl]
  by_cases h1 : rd16 h data old ∈ noPayloadMarkers
  · rw [if_pos h1, if_pos h1]
  · rw [if_neg h1, if_neg h1]
    by_cases h2 : rd16 h data old ∈ lengthMarkers
    · rw [if_pos h2, if_pos h2, hlen (Or.inl h2)]
    · rw [if_neg h2, if_neg h2]
      by_cases h3 : rd16 h data old = MARKER_SOS
      · rw [if_pos h3, if_pos h3, hsos h3]
      · rw [if_neg h3, if_neg h3]
        by_cases h4 : rd16 h data old = MARKER_APPN + 1
        · rw [if_pos h4, if_pos h4, hlen (Or.inr h4)]
          by_cases h5 : rd16 h data (old + 2) < 6
          · rw [if_pos h5, if_pos h5]
          · rw [if_neg h5, if_neg h5, hsig h4 (by omega)]
        · rw [if_neg h4, if_neg h4]

theorem segment_sos (h : Host) (data : List Byte) {old : Nat}
    (hm : rd16 h data old = MARKER_SOS) :
    segment h data old = .brk (sosScan h data (data.length - (old + 2)) (old + 2)) := by
  unfold segment
  simp only [hm]
  rw [if_neg (by decide), if_neg (by decide)]
  exact if_pos trivial

theorem segment_app1 (h : Host) (data : List Byte) {old : Nat}
    (hm : rd16 h data old = MARKER_APPN + 1) :
    segment h data old =
      if rd16 h data (old + 2) < 6 then .cont (old + 2 + rd16 h data (old + 2))
      else if span h data (old + 4) (old + 10) = EXIF_HEADER then
        .cont (old + 2 + rd16 h data (old + 2))
      else .brk (old + 2 + rd16 h data (old + 2)) := by
  unfold segment
  simp only [hm]
  rw [if_neg (by decide), if_neg (by decide), if_neg (by decide), if_pos trivial]
  rfl

theorem segment_eoi (h : Host) (data : List Byte) {old : Nat}
    (hm : rd16 h data old = MARKER_EOI) : segment h data old = .brk (old + 2) := by
  unfold segment
  simp only [hm]
  exact if_pos (by decide)

theorem segment_app1_ptr (h : Host) (data : List Byte) {old p : Nat}
    (hm : rd16 h data old = MARKER_APPN + 1)
    (hs : segment h data old = .brk p ∨ segment h data old = .cont p) :
    p = old + 2 + rd16 h data (old + 2) := by
  rw [segment_app1 h data hm] at hs
  split at hs
  · rcases hs with e | e <;> cases e; rfl
  · split at hs
    · rcases hs with e | e <;> cases e; rfl
    · rcases hs with e | e <;> cases e; rfl

/-- A round whose segment ends at or before `q` does the same on every buffer
that agrees with `data` on the first `q + 2` bytes. -/
theorem segment_agree {h h' : Host} {data data' : List Byte} {q : Nat}
    (hag : ∀ i, i < q + 2 → rd h' data' i = rd h data i)
    (hn : q + 2 ≤ data.length) (hn' : q + 2 ≤ data'.length) {old p : Nat}
    (hs : segment h data old = .brk p ∨ segment h data old = .cont p) (hp : p ≤ q) :
    segment h' data' old = segment h data old := by
  have hold : old + 2 ≤ p := by
    rcases hs with e | e
    · exact segment_brk_gt h data e
    · exact segment_cont_gt h data e
  apply segment_congr
  · exact rd16_congr hag (by omega)
  · intro _; exact rd16_congr hag (by omega)
  · intro hm
    have e := segment_sos h data hm
    rw [e] at hs
    have hpe : p = sosScan h data (data.length - (old + 2)) (old + 2) := by
      rcases hs with e | e <;> cases e; rfl
    exact sosScan_congr hag hn hn' (by omega) (by omega)
  · intro hm h6
    have := segment_app1_ptr h data hm hs
    exact span_congr hag (by omega)

/-- A marker value equal to `MARKER_EOI` is the byte pair `FF D9`. -/
theorem span_of_eoi (h : Host) (data : List Byte) {q : Nat}
    (hm : rd16 h data q = MARKER_EOI) : span h data q (q + 2) = [0xFF, 0xD9] := by
  rw [rd16_eq] at hm
  have e : q + 2 - q = 2 := by omega
  have h0 : rd h data q = 0xFF := by
    apply Fin.ext; have := (rd h data q).isLt; have := (rd h data (q + 1)).isLt
    simp only [MARKER_EOI] at hm; show (rd h data q).val = 255; omega
  have h1 : rd h data (q + 1) = 0xD9 := by
    apply Fin.ext; have := (rd h data q).isLt; have := (rd h data (q + 1)).isLt
    simp only [MARKER_EOI] at hm; show (rd h data (q + 1)).val = 217; omega
  simp [span, e, List.range_succ, h0, h1]

/-- When the loop meets an EOI marker at boundary `q` it stops there with
success, and does so on every buffer that agrees on the first `q + 2` bytes. -/
theorem scanLoop_eoi (h h' : Host) (data data' : List Byte) (q : Nat)
    (hag : ∀ i, i < q + 2 → rd h' data' i = rd h data i) (hn' : q + 2 ≤ data'.length)
    (hm : rd16 h data q = MARKER_EOI) (fuel ptr : Nat) (out : List Byte)
    (hq : q ∈ boundariesFrom h data fuel ptr) :
    ∃ out', scanLoop h data fuel ptr out = .ok out' (q + 2) ∧
      scanLoop h' data' fuel ptr out = .ok out' (q + 2) ∧
      List.IsSuffix [0xFF, 0xD9] out' := by
  have hn := (boundariesFrom_ge h data fuel ptr q hq).2
  induction fuel generalizing ptr out with
  | zero => simp [boundariesFrom] at hq
  | succ f ih =>
    have hpq := (boundariesFrom_ge h data _ ptr q hq).1
    have hin : ptr + 2 ≤ data.length := by omega
    have hin' : ptr + 2 ≤ data'.length := by omega
    by_cases hptr : ptr = q
    · subst hptr
      have hm' : rd16 h' data' ptr = MARKER_EOI := by rw [rd16_congr hag (by omega), hm]
      refine ⟨out ++ [0xFF, 0xD9], ?_, ?_, List.suffix_append _ _⟩
      · rw [scanLoop_brk h data f out hin (segment_eoi h data hm), if_pos hm, span_of_eoi h data hm]
      · rw [scanLoop_brk h' data' f out hin' (segment_eoi h' data' hm'), if_pos hm',
          span_of_eoi h' data' hm']
    · cases hseg : segment h data ptr with
      | brk p1 =>
        rw [boundariesFrom_brk h data f hin hseg] at hq
        rcases List.mem_cons.1 hq with e | e
        · exact absurd e.symm hptr
        · by_cases he : rd16 h data ptr = MARKER_EOI
          · rw [if_pos he] at e; simp at e
          · rw [if_neg he] at e
            have hp1 := (boundariesFrom_ge h data f p1 q e).1
            have hgt := segment_brk_gt h data hseg
            have hseg' : segment h' data' ptr = .brk p1 := by
              rw [segment_agree hag hn hn' (Or.inl hseg) hp1, hseg]
            have he' : ¬ rd16 h' data' ptr = MARKER_EOI := by
              rw [rd16_congr hag (by omega)]; exact he
            rw [scanLoop_brk h data f out hin hseg, if_neg he,
              scanLoop_brk h' data' f out hin' hseg', if_neg he',
              span_congr hag (by omega : p1 ≤ q + 2)]
            exact ih _ _ e
      | cont p1 =>
        rw [boundariesFrom_cont h data f hin hseg] at hq
        rcases List.mem_cons.1 hq with e | e
        · exact absurd e.symm hptr
        · have hp1 := (boundariesFrom_ge h data f p1 q e).1
          have hseg' : segment h' data' ptr = .cont p1 := by
            rw [segment_agree hag hn hn' (Or.inr hseg) hp1, hseg]
          rw [scanLoop_cont h data f out hin hseg, scanLoop_cont h' data' f out hin' hseg']
          exact ih _ _ e
      | err m =>
        rw [boundariesFrom_err h data f hin hseg] at hq
        simp at hq; exact absurd hq.symm hptr

/-- What the loop appends is what it walks over with some spans left out. -/
theorem scanLoop_sublist (h : Host) (data : List Byte) (fuel ptr : Nat) (out out' : List Byte)
    (p : Nat) (hs : scanLoop h data fuel ptr out = .ok out' p) :
    ptr ≤ p ∧ ∃ s, out' = out ++ s ∧ s.Sublist (span h data ptr p) := by
  induction fuel generalizing ptr out with
  | zero => simp [scanLoop] at hs
  | succ f ih =>
    by_cases hin : ptr + 2 ≤ data.length
    · cases hseg : segment h data ptr with
      | brk p1 =>
        have hgt := segment_brk_gt h data hseg
        rw [scanLoop_brk h data f out hin hseg] at hs
        by_cases he : rd16 h data ptr = MARKER_EOI
        · rw [if_pos he] at hs; cases hs
          exact ⟨by omega, _, rfl, List.Sublist.refl _⟩
        · rw [if_neg he] at hs
          obtain ⟨a, s, b, c⟩ := ih _ _ hs
          refine ⟨by omega, span h data ptr p1 ++ s, by rw [b, List.append_assoc], ?_⟩
          rw [← span_append h data (by omega : ptr ≤ p1) a]
          exact List.Sublist.append (List.Sublist.refl _) c
      | cont p1 =>
        have hgt := segment_cont_gt h data hseg
        rw [scanLoop_cont h data f out hin hseg] at hs
        obtain ⟨a, s, b, c⟩ := ih _ _ hs
        refine ⟨by omega, s, b, ?_⟩
        rw [← span_append h data (by omega : ptr ≤ p1) a]
        exact c.trans (List.sublist_append_right _ _)
      | err m => rw [scanLoop_err h data f out hin hseg] at hs; cases hs
    · rw [scanLoop_exit h data f out hin] at hs; cases hs
      exact ⟨Nat.le_refl _, [], by simp, by simp [span_self]⟩

/-! ## The loop on a stream of complete segments -/

theorem drop_cons_rd (h : Host) {data : List Byte} {pos : Nat} {b : Byte} {t : List Byte}
    (hd : data.drop pos = b :: t) :
    rd h data pos = b ∧ data.drop (pos + 1) = t ∧ pos < data.length := by
  have hlt : pos < data.length := by
    by_contra hc
    rw [List.drop_eq_nil_of_le (by omega)] at hd; cases hd
  rw [List.drop_eq_getElem_cons hlt] at hd
  injection hd with e1 e2
  exact ⟨by rw [rd_of_lt h data hlt]; exact e1, e2, hlt⟩

theorem drop_rd16 (h : Host) {data : List Byte} {pos : Nat} {b0 b1 : Byte} {t : List Byte}
    (hd : data.drop pos = b0 :: b1 :: t) :
    rd16 h data pos = b0.val * 256 + b1.val ∧ data.drop (pos + 2) = t ∧
      pos + 2 ≤ data.length := by
  obtain ⟨e0, d1, -⟩ := drop_cons_rd h hd
  obtain ⟨e1, d2, l2⟩ := drop_cons_rd h d1
  rw [rd16_eq, e0, e1]
  exact ⟨rfl, d2, l2⟩

theorem drop_append_span (h : Host) {data : List Byte} {pos : Nat} (l : List Byte)
    {t : List Byte} (hd : data.drop pos = l ++ t) (hp : pos ≤ data.length) :
    span h data pos (pos + l.length) = l ∧ data.drop (pos + l.length) = t ∧
      pos + l.length ≤ data.length := by
  have hlen : pos + l.length ≤ data.length := by
    have := congrArg List.length hd
    rw [List.length_drop, List.length_append] at this
    omega
  refine ⟨?_, ?_, hlen⟩
  · rw [span_eq_take_drop h data hlen, hd]
    have : pos + l.length - pos = l.length := by omega
    rw [this, List.take_left]
  · rw [← List.drop_drop, hd, List.drop_left]

theorem be16_rd (h : Host) {data : List Byte} {pos m : Nat} {t : List Byte}
    (hm : m < 65536) (hd : data.drop pos = be16 m ++ t) :
    rd16 h data pos = m ∧ data.drop (pos + 2) = t ∧ pos + 2 ≤ data.length := by
  have hd' : data.drop pos = Fin.ofNat (m / 256) :: Fin.ofNat m :: t := hd
  obtain ⟨e, d, l⟩ := drop_rd16 h hd'
  refine ⟨?_, d, l⟩
  rw [e]
  show (m / 256) % 256 * 256 + m % 256 = m
  omega

/-- On a run that holds no marker and is followed by a marker, the inner loop
stops right after the run. -/
theorem sosScan_run (h : Host) (data : List Byte) (run t : List Byte) (ht : startsMarker t)
    (hfree : runFree run = true) (fuel ptr : Nat) (hf : data.length - ptr ≤ fuel)
    (hd : data.drop ptr = run ++ t) :
    sosScan h data fuel ptr = ptr + run.length := by
  induction run generalizing fuel ptr with
  | nil =>
    obtain ⟨c, t', rfl, hc0, hc1⟩ := ht
    obtain ⟨e, -, l⟩ := drop_rd16 h (by simpa using hd)
    obtain ⟨f, rfl⟩ : ∃ f, fuel = f + 1 := ⟨fuel - 1, by omega⟩
    have hfm : foundMarker (rd16 h data ptr) = true := by
      rw [e, foundMarker_iff]; exact ⟨rfl, hc0, hc1⟩
    simp only [sosScan, List.length_nil, Nat.add_zero]
    rw [if_pos (by omega), if_pos ⟨by omega, hfm⟩]
  | cons b rest ih =>
    obtain ⟨c, t', rfl, hc0, hc1⟩ := ht
    have hnf : foundMarker (rd16 h data ptr) = false := by
      cases rest with
      | nil =>
        obtain ⟨e, -, -⟩ := drop_rd16 h (by simpa using hd)
        rw [e, Bool.eq_false_iff, Ne, foundMarker_iff]
        simp only [runFree, decide_eq_true_eq] at hfree
        exact fun c => hfree c.1
      | cons c' rest' =>
        obtain ⟨e, -, -⟩ := drop_rd16 h (by simpa using hd)
        rw [e, Bool.eq_false_iff, Ne, foundMarker_iff]
        simp only [runFree, Bool.and_eq_true, Bool.or_eq_true, decide_eq_true_eq] at hfree
        intro c
        rcases hfree.1 with (x | x) | x
        · exact x c.1
        · exact c.2.1 x
        · exact c.2.2 x
    have hrest : runFree rest = true := by
      cases rest with
      | nil => rfl
      | cons c' rest' =>
        simp only [runFree, Bool.and_eq_true] at hfree
        exact hfree.2
    obtain ⟨-, d1, l1⟩ := drop_cons_rd h (by simpa using hd)
    obtain ⟨f, rfl⟩ : ∃ f, fuel = f + 1 := ⟨fuel - 1, by omega⟩
    simp only [sosScan]
    rw [if_pos l1, if_neg (by rw [hnf]; simp), ih hrest f (ptr + 1) (by omega) d1]
    simp only [List.length_cons]; omega

theorem stream_cons (s : Segment) (rest : List Segment) :
    stream (s :: rest) = s.bytes ++ stream rest := by
  simp [stream]

theorem noPayload_lt {m : Nat} (hm : m ∈ noPayloadMarkers) : m < 65536 := by
  simp only [noPayloadMarkers, MARKER_SOI, MARKER_RSTN, MARKER_EOI, List.mem_cons,
    List.mem_singleton, List.not_mem_nil, or_false] at hm
  omega

theorem lengthMarkers_lt {m : Nat} (hm : m ∈ lengthMarkers) : m < 65536 := by
  simp only [lengthMarkers, MARKER_SOF0, MARKER_SOF2, MARKER_DHT, MARKER_DQT, MARKER_DRI,
    MARKER_APPN, MARKER_COM, List.mem_cons, List.mem_singleton, List.not_mem_nil,
    or_false] at hm
  omega

theorem be16_startsMarker {m : Nat} (hm : m / 256 = 0xFF ∧ m % 256 ≠ 0 ∧
    ¬ (0xD0 ≤ m % 256 ∧ m % 256 ≤ 0xD7)) (t : List Byte) : startsMarker (be16 m ++ t) := by
  refine ⟨Fin.ofNat m, t, ?_, hm.2.1, hm.2.2⟩
  have : (Fin.ofNat (m / 256) : Byte) = 0xFF := by
    apply Fin.ext; show m / 256 % 256 = 255; omega
  simp [be16, this]

/-- Every complete segment other than a restart marker begins with a marker that
ends an entropy-coded run. -/
theorem bytes_startsMarker {s : Segment} (hc : s.complete = true) (hr : s.isRst = false)
    (t : List Byte) : startsMarker (s.bytes ++ t) := by
  cases s with
  | bare m =>
    simp only [Segment.complete, decide_eq_true_eq] at hc
    simp only [Segment.isRst, decide_eq_false_iff_not] at hr
    simp only [noPayloadMarkers, MARKER_SOI, MARKER_RSTN, MARKER_EOI, List.mem_cons,
      List.mem_singleton, List.not_mem_nil, or_false] at hc hr
    exact be16_startsMarker (by omega) t
  | sized m payload =>
    simp only [Segment.complete, Bool.and_eq_true, decide_eq_true_eq] at hc
    have h1 := hc.1
    simp only [lengthMarkers, MARKER_SOF0, MARKER_SOF2, MARKER_DHT, MARKER_DQT, MARKER_DRI,
      MARKER_APPN, MARKER_COM, List.mem_cons, List.mem_singleton, List.not_mem_nil,
      or_false] at h1
    simp only [Segment.bytes, List.append_assoc]
    exact be16_startsMarker (by omega) _
  | scanRun run =>
    simp only [Segment.bytes, List.append_assoc]
    exact be16_startsMarker (by decide) _
  | app1 payload =>
    simp only [Segment.bytes, List.append_assoc]
    exact be16_startsMarker (by decide) _

theorem runFree_append_rst {m : Nat} (hm : MARKER_RSTN ≤ m ∧ m ≤ MARKER_RSTN + 7)
    (run : List Byte) (hfree : runFree run = true) : runFree (run ++ be16 m) = true := by
  have h0 : (Fin.ofNat (m / 256) : Byte).val = 0xFF := by
    simp only [MARKER_RSTN] at hm; show m / 256 % 256 = 255; omega
  have h1 : 0xD0 ≤ (Fin.ofNat m : Byte).val ∧ (Fin.ofNat m : Byte).val ≤ 0xD7 := by
    simp only [MARKER_RSTN] at hm; show 0xD0 ≤ m % 256 ∧ m % 256 ≤ 0xD7; omega
  have hbase : runFree (be16 m) = true := by
    simp only [be16, runFree, Bool.and_eq_true, Bool.or_eq_true, decide_eq_true_eq]
    exact ⟨Or.inr h1, by omega⟩
  induction run with
  | nil => simpa using hbase
  | cons b rest ih =>
    cases rest with
    | nil =>
      simp only [runFree, decide_eq_true_eq] at hfree
      simp only [be16, runFree, List.cons_append, List.nil_append, Bool.and_eq_true,
        Bool.or_eq_true, decide_eq_true_eq]
      exact ⟨Or.inl (Or.inl hfree), Or.inr h1, by omega⟩
    | cons c rest' =>
      simp only [runFree, Bool.and_eq_true] at hfree
      have := ih hfree.2
      simp only [List.cons_append, runFree, Bool.and_eq_true]
      exact ⟨hfree.1, by simpa using this⟩

theorem stream_filter_cons_keep (s : Segment) (rest : List Segment) (hk : s.isApp1 = false) :
    stream ((s :: rest).filter (fun x => !x.isApp1)) =
      s.bytes ++ stream (rest.filter (fun x => !x.isApp1)) := by
  simp [List.filter_cons, hk, stream_cons]

/-- The last round: the loop copies the EOI marker and stops. -/
theorem scanLoop_final (h : Host) (data : List Byte) (pos : Nat) (out : List Byte)
    (hd : data.drop pos = [0xFF, 0xD9]) :
    scanLoop h data 1 pos out = .ok (out ++ [0xFF, 0xD9]) data.length := by
  obtain ⟨e, d, l⟩ := drop_rd16 h hd
  have hm : rd16 h data pos = MARKER_EOI := by rw [e]; rfl
  have hn : data.length = pos + 2 := by
    have := congrArg List.length d
    rw [List.length_drop] at this
    simp at this; omega
  rw [scanLoop_brk h data 0 out l (segment_eoi h data hm), if_pos hm, span_of_eoi h data hm, hn]

/-- One round on a segment that is copied: the loop appends its bytes and goes
on right after it. -/
theorem scanLoop_copy (h : Host) (data : List Byte) (pos p : Nat) (out l t : List Byte)
    (hd : data.drop pos = l ++ t) (hin : pos + 2 ≤ data.length)
    (hseg : segment h data pos = .brk p) (hp : p = pos + l.length)
    (hne : rd16 h data pos ≠ MARKER_EOI) :
    (∀ fuel, scanLoop h data (fuel + 1) pos out = scanLoop h data fuel p (out ++ l)) ∧
      data.drop p = t := by
  obtain ⟨e, d, -⟩ := drop_append_span h l hd (by omega)
  subst hp
  refine ⟨fun fuel => ?_, d⟩
  rw [scanLoop_brk h data fuel out hin hseg, if_neg hne, e]

/-- On a stream of complete segments followed by an EOI marker the loop writes
the segments other than APP1, then the EOI marker. -/
theorem scanLoop_stream (h : Host) (data : List Byte) (k : Nat) :
    ∀ segs : List Segment, segs.length ≤ k → (∀ s ∈ segs, s.complete = true) →
      Segment.bare MARKER_EOI ∉ segs → ∀ (pos : Nat) (out : List Byte),
      data.drop pos = stream segs ++ [0xFF, 0xD9] →
      ∃ fuel, scanLoop h data fuel pos out =
        .ok (out ++ stream (segs.filter (fun x => !x.isApp1)) ++ [0xFF, 0xD9]) data.length := by
  induction k with
  | zero =>
    intro segs hk _ _ pos out hd
    have : segs = [] := List.length_eq_zero.1 (Nat.le_zero.1 hk)
    subst this
    exact ⟨1, by simpa [stream] using scanLoop_final h data pos out (by simpa [stream] using hd)⟩
  | succ k ih =>
    intro segs hk hc hno pos out hd
    cases segs with
    | nil =>
      exact ⟨1, by simpa [stream] using scanLoop_final h data pos out (by simpa [stream] using hd)⟩
    | cons s rest =>
      have hk' : rest.length ≤ k := by simpa using hk
      have hc' : ∀ x ∈ rest, x.complete = true := fun x hx => hc x (List.mem_cons_of_mem _ hx)
      have hno' : Segment.bare MARKER_EOI ∉ rest := fun hx => hno (List.mem_cons_of_mem _ hx)
      have hcs := hc s (List.mem_cons_self _ _)
      rw [stream_cons, List.append_assoc] at hd
      cases s with
      | bare m =>
        have hm : m ∈ noPayloadMarkers := by simpa [Segment.complete] using hcs
        have hne : m ≠ MARKER_EOI := by
          intro e; subst e; exact hno (List.mem_cons_self _ _)
        obtain ⟨e, -, l⟩ := be16_rd h (noPayload_lt hm) hd
        have hseg : segment h data pos = .brk (pos + 2) := by
          unfold segment; simp only [e]; rw [if_pos hm]
        obtain ⟨st, d⟩ := scanLoop_copy h data pos (pos + 2) out (be16 m) _ hd l hseg rfl
          (by rw [e]; exact hne)
        obtain ⟨f, hf⟩ := ih rest hk' hc' hno' (pos + 2) (out ++ be16 m) d
        refine ⟨f + 1, ?_⟩
        rw [st f, hf, stream_filter_cons_keep (Segment.bare m) rest rfl]
        simp [Segment.bytes, List.append_assoc]
      | sized m payload =>
        simp only [Segment.complete, Bool.and_eq_true, decide_eq_true_eq] at hcs
        obtain ⟨hm, hL⟩ := hcs
        have hnp : m ∉ noPayloadMarkers := by
          intro hx
          revert hm hx
          simp only [noPayloadMarkers, lengthMarkers, MARKER_SOI, MARKER_RSTN, MARKER_EOI,
            MARKER_SOF0, MARKER_SOF2, MARKER_DHT, MARKER_DQT, MARKER_DRI, MARKER_APPN,
            MARKER_COM, List.mem_cons, List.mem_singleton, List.not_mem_nil, or_false]
          omega
        have hne : m ≠ MARKER_EOI := by
          intro e; subst e; exact hnp (by decide)
        simp only [Segment.bytes, List.append_assoc] at hd
        obtain ⟨e, d2, l⟩ := be16_rd h (lengthMarkers_lt hm) hd
        obtain ⟨e2, -, -⟩ := be16_rd h hL d2
        have hseg : segment h data pos = .brk (pos + 2 + (payload.length + 2)) := by
          unfold segment; simp only [e, e2]; rw [if_neg hnp, if_pos hm]
        have hd' : data.drop pos = (Segment.sized m payload).bytes ++
            (stream rest ++ [0xFF, 0xD9]) := by
          simp only [Segment.bytes, List.append_assoc]; exact hd
        obtain ⟨st, d⟩ := scanLoop_copy h data pos _ out _ _ hd' l hseg
          (by simp [Segment.bytes, be16]; omega) (by rw [e]; exact hne)
        obtain ⟨f, hf⟩ := ih rest hk' hc' hno' _ _ d
        refine ⟨f + 1, ?_⟩
        rw [st f, hf, stream_filter_cons_keep (Segment.sized m payload) rest rfl]
        simp [List.append_assoc]
      | scanRun run =>
        have hfree : runFree run = true := by simpa [Segment.complete] using hcs
        simp only [Segment.bytes, List.append_assoc] at hd
        have direct : startsMarker (stream rest ++ [0xFF, 0xD9]) →
            ∃ fuel, scanLoop h data fuel pos out =
              .ok (out ++ stream ((Segment.scanRun run :: rest).filter (fun x => !x.isApp1)) ++
                [0xFF, 0xD9]) data.length := by
          intro hst
          obtain ⟨e, d2, l⟩ := be16_rd h (by decide) hd
          have hstop := sosScan_run h data run _ hst hfree (data.length - (pos + 2)) (pos + 2)
            (Nat.le_refl _) d2
          have hseg : segment h data pos = .brk (pos + 2 + run.length) := by
            rw [segment_sos h data e, hstop]
          have hd' : data.drop pos = (Segment.scanRun run).bytes ++
              (stream rest ++ [0xFF, 0xD9]) := by
            simp only [Segment.bytes, List.append_assoc]; exact hd
          obtain ⟨st, d⟩ := scanLoop_copy h data pos _ out _ _ hd' l hseg
            (by simp [Segment.bytes, be16]; omega) (by rw [e]; decide)
          obtain ⟨f, hf⟩ := ih rest hk' hc' hno' _ _ d
          refine ⟨f + 1, ?_⟩
          rw [st f, hf, stream_filter_cons_keep (Segment.scanRun run) rest rfl]
          simp [List.append_assoc]
        cases rest with
        | nil => exact direct ⟨0xD9, [], rfl, by decide, by decide⟩
        | cons r rest' =>
          by_cases hr : r.isRst = true
          · cases r with
            | bare m =>
              have hm : MARKER_RSTN ≤ m ∧ m ≤ MARKER_RSTN + 7 := by
                simpa [Segment.isRst] using hr
              have hlen2 : (Segment.scanRun (run ++ be16 m) :: rest').length ≤ k := by
                simpa using hk'
              have hc2 : ∀ x ∈ Segment.scanRun (run ++ be16 m) :: rest', x.complete = true := by
                intro x hx
                rcases List.mem_cons.1 hx with rfl | hx
                · simpa [Segment.complete] using runFree_append_rst hm run hfree
                · exact hc' x (List.mem_cons_of_mem _ hx)
              have hno2 : Segment.bare MARKER_EOI ∉ Segment.scanRun (run ++ be16 m) :: rest' := by
                intro hx
                rcases List.mem_cons.1 hx with e | hx
                · cases e
                · exact hno' (List.mem_cons_of_mem _ hx)
              have hd2 : data.drop pos =
                  stream (Segment.scanRun (run ++ be16 m) :: rest') ++ [0xFF, 0xD9] := by
                rw [hd]; simp [stream_cons, Segment.bytes, List.append_assoc]
              obtain ⟨f, hf⟩ := ih _ hlen2 hc2 hno2 pos out hd2
              refine ⟨f, ?_⟩
              rw [hf]
              simp [List.filter_cons, Segment.isApp1, stream_cons, Segment.bytes,
                List.append_assoc]
            | sized m payload => simp [Segment.isRst] at hr
            | scanRun run' => simp [Segment.isRst] at hr
            | app1 payload => simp [Segment.isRst] at hr
          · have hr' : r.isRst = false := by simpa using hr
            refine direct ?_
            rw [stream_cons, List.append_assoc]
            exact bytes_startsMarker (hc' r (List.mem_cons_self _ _)) hr' _
      | app1 payload =>
        simp only [Segment.complete, Bool.and_eq_true, decide_eq_true_eq] at hcs
        obtain ⟨hL, hx⟩ := hcs
        simp only [Segment.bytes, List.append_assoc] at hd
        obtain ⟨e, d2, l⟩ := be16_rd h (by decide) hd
        obtain ⟨e2, d4, l4⟩ := be16_rd h hL d2
        have hplen : 6 ≤ payload.length := by
          have := congrArg List.length hx
          rw [List.length_take] at this
          simp [EXIF_HEADER] at this; omega
        have hsig : span h data (pos + 4) (pos + 10) = EXIF_HEADER := by
          have hsplit : payload = payload.take 6 ++ payload.drop 6 :=
            (List.take_append_drop 6 payload).symm
          rw [hsplit, hx, List.append_assoc] at d4
          obtain ⟨es, -, -⟩ := drop_append_span h EXIF_HEADER d4 (by omega)
          simpa [EXIF_HEADER] using es
        have hseg : segment h data pos = .cont (pos + 2 + (payload.length + 2)) := by
          rw [segment_app1 h data e, e2, if_neg (by omega), if_pos hsig]
        have d : data.drop (pos + 2 + (payload.length + 2)) = stream rest ++ [0xFF, 0xD9] := by
          have := (drop_append_span h payload d4 (by omega)).2.1
          rw [← this]; congr 1; omega
        obtain ⟨f, hf⟩ := ih rest hk' hc' hno' _ out d
        refine ⟨f + 1, ?_⟩
        rw [scanLoop_cont h data f out l hseg, hf]
        simp [List.filter_cons, Segment.isApp1]

/-! ## Shapes, progress and the batch of files -/

theorem segment_noPayload (h : Host) (data : List Byte) {old : Nat}
    (hm : rd16 h data old ∈ noPayloadMarkers) : segment h data old = .brk (old + 2) := by
  unfold segment
  exact if_pos hm

theorem noPayload_not_length {m : Nat} (hm : m ∈ lengthMarkers) : m ∉ noPayloadMarkers := by
  intro hx
  revert hm hx
  simp only [noPayloadMarkers, lengthMarkers, MARKER_SOI, MARKER_RSTN, MARKER_EOI,
    MARKER_SOF0, MARKER_SOF2, MARKER_DHT, MARKER_DQT, MARKER_DRI, MARKER_APPN,
    MARKER_COM, List.mem_cons, List.mem_singleton, List.not_mem_nil, or_false]
  omega

theorem segment_length (h : Host) (data : List Byte) {old : Nat}
    (hm : rd16 h data old ∈ lengthMarkers) :
    segment h data old = .brk (old + 2 + rd16 h data (old + 2)) := by
  unfold segment
  simp only []
  rw [if_neg (noPayload_not_length hm), if_pos hm]

/-- A successful round of the `for` loop changes the file it processes, and
no other. -/
theorem processFile_some (h : Host) (fs fs' : FS) (path : String)
    (hp : processFile h fs path = some fs') :
    fs' = fun p => if p = path then filterFile h (fs path) else fs p := by
  unfold processFile at hp
  cases hc : fs path with
  | none => rw [hc] at hp; cases hp
  | some data =>
    rw [hc] at hp
    simp only [] at hp
    by_cases hl : data.length = 0
    · rw [if_pos hl] at hp
      cases hp
      funext p
      by_cases e : p = path
      · rw [if_pos e, e, hc]; simp [filterFile, hl]
      · rw [if_neg e]
    · rw [if_neg hl] at hp
      cases hs : scan h data with
      | ok out q =>
        rw [hs] at hp
        cases hp
        funext p
        by_cases e : p = path
        · rw [if_pos e]; simp [FS.write, e, filterFile, hl, hs]
        · rw [if_neg e]; simp [FS.write, e]
      | unsupported m => rw [hs] at hp; cases hp
      | timeout => rw [hs] at hp; cases hp

/-- Whether a round succeeds depends on the contents of its file only. -/
theorem processFile_isSome_congr (h : Host) (fs fs' : FS) (path : String)
    (he : fs' path = fs path) :
    (processFile h fs' path).isSome = (processFile h fs path).isSome := by
  unfold processFile
  rw [he]
  cases fs path with
  | none => rfl
  | some data =>
    simp only []
    by_cases hl : data.length = 0
    · rw [if_pos hl, if_pos hl]; rfl
    · rw [if_neg hl, if_neg hl]
      cases scan h data <;> rfl

/-- A file processed without a fatal error and not empty holds the output of the
segment loop. -/
theorem filterFile_of_isSome (h : Host) (fs : FS) (path : String) (data : List Byte)
    (hs : (processFile h fs path).isSome = true) (hd : fs path = some data)
    (hne : data ≠ []) : ∃ out q, scan h data = .ok out q ∧ filterFile h (fs path) = some out := by
  have hl : ¬ data.length = 0 := fun c => hne (List.length_eq_zero.1 c)
  unfold processFile at hs
  rw [hd] at hs ⊢
  simp only [if_neg hl] at hs
  cases hsc : scan h data with
  | ok out q => exact ⟨out, q, rfl, by simp [filterFile, hl, hsc]⟩
  | unsupported m => rw [hsc] at hs; cases hs
  | timeout => rw [hsc] at hs; cases hs

/-- The `for` loop over distinct paths that all succeed leaves each of them
filtered and goes on with the rest. -/
theorem mainLoop_append (h : Host) (pre : List String) :
    ∀ (fs : FS) (rest : List String), pre.Nodup →
      (∀ p ∈ pre, (processFile h fs p).isSome = true) →
      mainLoop h fs (pre ++ rest) = mainLoop h (filtered h fs pre) rest := by
  induction pre with
  | nil =>
    intro fs rest _ _
    have : filtered h fs [] = fs := by funext p; simp [filtered]
    rw [this]; rfl
  | cons a pre ih =>
    intro fs rest hnd hok
    have ha := hok a (List.mem_cons_self _ _)
    obtain ⟨fs1, h1⟩ := Option.isSome_iff_exists.1 ha
    have hfs1 := processFile_some h fs fs1 a h1
    have hna : a ∉ pre := (List.nodup_cons.1 hnd).1
    have hok' : ∀ p ∈ pre, (processFile h fs1 p).isSome = true := by
      intro p hp
      have hpa : p ≠ a := fun c => hna (c ▸ hp)
      rw [processFile_isSome_congr h fs fs1 p (by rw [hfs1]; simp [hpa])]
      exact hok p (List.mem_cons_of_mem _ hp)
    have step : mainLoop h fs (a :: pre ++ rest) = mainLoop h fs1 (pre ++ rest) := by
      simp only [List.cons_append, mainLoop, h1]
      rfl
    rw [step, ih fs1 rest (List.nodup_cons.1 hnd).2 hok']
    congr 1
    funext p
    simp only [filtered, List.mem_cons]
    by_cases hpa : p = a
    · subst hpa
      simp [hna, hfs1]
    · simp [hpa, hfs1]

theorem filtered_of_not_mem (h : Host) (fs : FS) (paths : List String) (p : String)
    (hp : p ∉ paths) : filtered h fs paths p = fs p := by
  simp [filtered, hp]

theorem filtered_of_mem (h : Host) (fs : FS) (paths : List String) (p : String)
    (hp : p ∈ paths) : filtered h fs paths p = filterFile h (fs p) := by
  simp [filtered, hp]

/-- Rounds allowed beyond `data.length - ptr` do not change the inner loop. -/
theorem sosScan_fuel (h : Host) (data : List Byte) (fuel k ptr : Nat)
    (hf : data.length - ptr ≤ fuel) :
    sosScan h data (fuel + k) ptr = sosScan h data fuel ptr := by
  induction fuel generalizing ptr with
  | zero =>
    have hp : ¬ ptr < data.length := by omega
    cases k with
    | zero => rfl
    | succ k => simp only [Nat.zero_add, sosScan, if_neg hp]
  | succ f ih =>
    have e : f + 1 + k = (f + k) + 1 := by omega
    rw [e]
    simp only [sosScan]
    split
    · split
      · rfl
      · exact ih (ptr + 1) (by omega)
    · rfl

/-- Each round of the inner loop either leaves it or moves the cursor by one. -/
theorem sosScan_step (h : Host) (data : List Byte) (fuel ptr : Nat) :
    sosScan h data (fuel + 1) ptr = ptr ∨
      sosScan h data (fuel + 1) ptr = sosScan h data fuel (ptr + 1) := by
  simp only [sosScan]
  split
  · split
    · exact Or.inl rfl
    · exact Or.inr rfl
  · exact Or.inl rfl

/-- The loop runs its body at most `(data.length - ptr) / 2` times. -/
theorem boundariesFrom_length (h : Host) (data : List Byte) (fuel ptr : Nat) :
    2 * (boundariesFrom h data fuel ptr).length ≤ data.length - ptr := by
  induction fuel generalizing ptr with
  | zero => simp [boundariesFrom]
  | succ f ih =>
    by_cases hin : ptr + 2 ≤ data.length
    · cases hs : segment h data ptr with
      | brk p =>
        rw [boundariesFrom_brk h data f hin hs]
        have := segment_brk_gt h data hs
        split
        · simp; omega
        · have := ih p; simp only [List.length_cons]; omega
      | cont p =>
        rw [boundariesFrom_cont h data f hin hs]
        have := segment_cont_gt h data hs
        have := ih p; simp only [List.length_cons]; omega
      | err m => rw [boundariesFrom_err h data f hin hs]; simp; omega
    · rw [boundariesFrom_exit h data f hin]; simp

/-! ## The claims -/

/-- Claim C1, counterexample. The stream SOI, EOI, comment segment, EOI is a
concatenation of complete segments of recognized markers that starts with SOI,
ends with EOI and holds no APP1 segment, yet the output is `FF D8 FF D9` and not
the concatenation of its segments: the loop stops at the first EOI marker. -/
theorem early_eoi_truncates :
    (∀ s ∈ [Segment.bare MARKER_SOI, Segment.bare MARKER_EOI, Segment.sized MARKER_COM [],
        Segment.bare MARKER_EOI], s.complete = true) ∧
    stream [Segment.bare MARKER_SOI, Segment.bare MARKER_EOI, Segment.sized MARKER_COM [],
        Segment.bare MARKER_EOI] =
      [0xFF, 0xD8, 0xFF, 0xD9, 0xFF, 0xFE, 0x00, 0x02, 0xFF, 0xD9] ∧
    stream ([Segment.bare MARKER_SOI, Segment.bare MARKER_EOI, Segment.sized MARKER_COM [],
        Segment.bare MARKER_EOI].filter (fun s => !s.isApp1)) =
      [0xFF, 0xD8, 0xFF, 0xD9, 0xFF, 0xFE, 0x00, 0x02, 0xFF, 0xD9] ∧
    scan zeroHost [0xFF, 0xD8, 0xFF, 0xD9, 0xFF, 0xFE, 0x00, 0x02, 0xFF, 0xD9] =
      .ok [0xFF, 0xD8, 0xFF, 0xD9] 4 := by
  decide

/-- Claim C1, amended. For every input that is the concatenation of an SOI marker,
complete segments of recognized markers none of which is an EOI marker, and a
final EOI marker, where every APP1 segment has a payload beginning with
`45 78 69 66 00 00` (so a declared length of at least 8) and every start-of-scan
run holds no marker, the scan succeeds at the end of the buffer and the output
is exactly the concatenation of the segments other than APP1, in their order. -/
theorem exif_segments_removed (h : Host) (mid : List Segment)
    (hc : ∀ s ∈ mid, s.complete = true) (hno : Segment.bare MARKER_EOI ∉ mid) :
    scan h (stream (Segment.bare MARKER_SOI :: mid ++ [Segment.bare MARKER_EOI])) =
      .ok (stream ((Segment.bare MARKER_SOI :: mid ++ [Segment.bare MARKER_EOI]).filter
          (fun s => !s.isApp1)))
        (stream (Segment.bare MARKER_SOI :: mid ++ [Segment.bare MARKER_EOI])).length := by
  have hc' : ∀ s ∈ Segment.bare MARKER_SOI :: mid, s.complete = true := by
    intro s hs
    rcases List.mem_cons.1 hs with rfl | hs
    · decide
    · exact hc s hs
  have hno' : Segment.bare MARKER_EOI ∉ Segment.bare MARKER_SOI :: mid := by
    intro hs
    rcases List.mem_cons.1 hs with e | hs
    · exact absurd e (by decide)
    · exact hno hs
  have hst : ∀ l : List Segment, stream (l ++ [Segment.bare MARKER_EOI]) =
      stream l ++ [0xFF, 0xD9] := by
    intro l; simp [stream, Segment.bytes, be16, MARKER_EOI]; decide
  obtain ⟨f, hf⟩ := scanLoop_stream h
    (stream (Segment.bare MARKER_SOI :: mid ++ [Segment.bare MARKER_EOI])) _
    (Segment.bare MARKER_SOI :: mid) (Nat.le_refl _) hc' hno' 0 []
    (by rw [List.drop_zero]; exact hst (Segment.bare MARKER_SOI :: mid))
  have hfil : (Segment.bare MARKER_SOI :: mid ++ [Segment.bare MARKER_EOI]).filter
      (fun s => !s.isApp1) =
      (Segment.bare MARKER_SOI :: mid).filter (fun s => !s.isApp1) ++
        [Segment.bare MARKER_EOI] := by
    rw [List.filter_append]; rfl
  rw [List.nil_append] at hf
  rw [hfil, hst (List.filter (fun s => !s.isApp1) (Segment.bare MARKER_SOI :: mid))]
  exact scan_eq_of_scanLoop h _ f hf

theorem exif_segments_removed_witness :
    scan zeroHost [0xFF, 0xD8, 0xFF, 0xE1, 0x00, 0x08, 0x45, 0x78, 0x69, 0x66, 0x00, 0x00,
        0xFF, 0xFE, 0x00, 0x06, 0x01, 0x02, 0x03, 0x04, 0xFF, 0xD9] =
      .ok [0xFF, 0xD8, 0xFF, 0xFE, 0x00, 0x06, 0x01, 0x02, 0x03, 0x04, 0xFF, 0xD9] 22 :=
  exif_segments_removed zeroHost
    [Segment.app1 [0x45, 0x78, 0x69, 0x66, 0x00, 0x00],
      Segment.sized MARKER_COM [0x01, 0x02, 0x03, 0x04]]
    (by decide) (by decide)

/-- Claim C2. An APP1 segment met by the loop at `old`, with a declared length of
at least 6 and its span inside the buffer, is dropped (the `switch` is left by
`continue`, nothing is appended) if and only if the six bytes right after the
length field equal `45 78 69 66 00 00`; when they differ the whole segment,
marker, length field and payload, is appended to the output verbatim.  In both
cases the loop goes on right after the segment. -/
theorem app1_dropped_iff_exif (h : Host) (data : List Byte) (fuel old : Nat) (out : List Byte)
    (hin : old + 2 ≤ data.length) (hm : rd16 h data old = MARKER_APPN + 1)
    (hlen : 6 ≤ rd16 h data (old + 2))
    (hspan : old + 2 + rd16 h data (old + 2) ≤ data.length) :
    (segment h data old = .cont (old + 2 + rd16 h data (old + 2)) ↔
      span h data (old + 4) (old + 10) = [0x45, 0x78, 0x69, 0x66, 0x00, 0x00]) ∧
    (span h data (old + 4) (old + 10) = [0x45, 0x78, 0x69, 0x66, 0x00, 0x00] →
      scanLoop h data (fuel + 1) old out =
        scanLoop h data fuel (old + 2 + rd16 h data (old + 2)) out) ∧
    (span h data (old + 4) (old + 10) ≠ [0x45, 0x78, 0x69, 0x66, 0x00, 0x00] →
      scanLoop h data (fuel + 1) old out =
        scanLoop h data fuel (old + 2 + rd16 h data (old + 2))
          (out ++ (data.drop old).take (2 + rd16 h data (old + 2)))) := by
  have hseg := segment_app1 h data hm
  rw [if_neg (by omega)] at hseg
  have hE : EXIF_HEADER = [0x45, 0x78, 0x69, 0x66, 0x00, 0x00] := rfl
  rw [hE] at hseg
  refine ⟨?_, ?_, ?_⟩
  · constructor
    · intro hc
      by_contra hne
      rw [if_neg hne] at hseg
      rw [hseg] at hc; cases hc
    · intro he; rw [hseg, if_pos he]
  · intro he
    rw [if_pos he] at hseg
    exact scanLoop_cont h data fuel out hin hseg
  · intro hne
    rw [if_neg hne] at hseg
    have ne : ¬ rd16 h data old = MARKER_EOI := by rw [hm]; decide
    rw [scanLoop_brk h data fuel out hin hseg, if_neg ne, span_eq_take_drop h data hspan]
    congr 3
    omega

theorem app1_dropped_iff_exif_witness :
    (scanLoop zeroHost [0xFF, 0xE1, 0x00, 0x08, 0x45, 0x78, 0x49, 0x46, 0x00, 0x00, 0xFF, 0xD9]
        (5 + 1) 0 [] =
      scanLoop zeroHost [0xFF, 0xE1, 0x00, 0x08, 0x45, 0x78, 0x49, 0x46, 0x00, 0x00, 0xFF, 0xD9]
        5 10 [0xFF, 0xE1, 0x00, 0x08, 0x45, 0x78, 0x49, 0x46, 0x00, 0x00]) :=
  (app1_dropped_iff_exif zeroHost
    [0xFF, 0xE1, 0x00, 0x08, 0x45, 0x78, 0x49, 0x46, 0x00, 0x00, 0xFF, 0xD9] 5 0 []
    (by decide) (by decide) (by decide) (by decide)).2.2 (by decide)

/-- Claim C3, where the code differs. An APP1 segment with declared length 4 is not kept:
on `FF D8 | FF E1 00 04 41 42 | FF D9` the output is `FF D8 | FF D9`, on every
host.  The branch for a length below 6 leaves the round by `continue`, which
skips the copy. -/
theorem short_app1_is_dropped (h : Host) :
    scan h [0xFF, 0xD8, 0xFF, 0xE1, 0x00, 0x04, 0x41, 0x42, 0xFF, 0xD9] =
      .ok [0xFF, 0xD8, 0xFF, 0xD9] 10 := by
  have hz : scan zeroHost [0xFF, 0xD8, 0xFF, 0xE1, 0x00, 0x04, 0x41, 0x42, 0xFF, 0xD9] =
      .ok [0xFF, 0xD8, 0xFF, 0xD9] 10 := by decide
  have hq : 8 ∈ boundariesFrom zeroHost
      [0xFF, 0xD8, 0xFF, 0xE1, 0x00, 0x04, 0x41, 0x42, 0xFF, 0xD9] 6 0 := by decide
  obtain ⟨o, h1, h2, -⟩ := scanLoop_eoi zeroHost h
    [0xFF, 0xD8, 0xFF, 0xE1, 0x00, 0x04, 0x41, 0x42, 0xFF, 0xD9]
    [0xFF, 0xD8, 0xFF, 0xE1, 0x00, 0x04, 0x41, 0x42, 0xFF, 0xD9] 8
    (fun i hi => by rw [rd_of_lt _ _ (by simpa using hi), rd_of_lt _ _ (by simpa using hi)])
    (by decide) (by decide) 6 0 [] hq
  have e : Result.ok o (8 + 2) = .ok [0xFF, 0xD8, 0xFF, 0xD9] 10 := h1.symm.trans hz
  exact h2.trans e

/-- Claim C4, counterexample. On `FF D8 FF D9 00` the scan completes without error
and meets no APP1 marker, yet the output `FF D8 FF D9` is not the input: the byte
after the EOI marker is not copied. -/
theorem no_app1_output_differs :
    scan zeroHost [0xFF, 0xD8, 0xFF, 0xD9, 0x00] = .ok [0xFF, 0xD8, 0xFF, 0xD9] 4 ∧
    (∀ q ∈ boundaries zeroHost [0xFF, 0xD8, 0xFF, 0xD9, 0x00],
      rd16 zeroHost [0xFF, 0xD8, 0xFF, 0xD9, 0x00] q ≠ MARKER_APPN + 1) ∧
    ([0xFF, 0xD8, 0xFF, 0xD9] : List Byte) ≠ [0xFF, 0xD8, 0xFF, 0xD9, 0x00] := by
  decide

/-- Claim C4, amended. When the scan completes without error, meets no APP1 marker
at a segment boundary and leaves the cursor `p` inside the buffer, the output is
the input up to `p`; it is the whole input exactly when the scan consumed the
whole buffer.  (Bytes after an EOI marker, and a last single byte, are not
copied.) -/
theorem no_app1_output_is_scanned_input (h : Host) (data out : List Byte) (p : Nat)
    (hs : scan h data = .ok out p)
    (hno : ∀ q ∈ boundaries h data, rd16 h data q ≠ MARKER_APPN + 1)
    (hp : p ≤ data.length) :
    out = data.take p ∧ (out = data ↔ p = data.length) := by
  obtain ⟨-, b⟩ := scanLoop_no_app1 h data _ 0 [] out p hs hno
  have e : out = data.take p := by
    rw [b, span_eq_take_drop h data hp]; simp
  refine ⟨e, ?_⟩
  constructor
  · intro hd
    have := congrArg List.length e
    rw [hd, List.length_take] at this
    omega
  · intro hd
    rw [e, hd, List.take_length]

theorem no_app1_output_is_scanned_input_witness :
    ([0xFF, 0xD8, 0xFF, 0xD9] : List Byte) = List.take 4 [0xFF, 0xD8, 0xFF, 0xD9, 0x00] ∧
    (([0xFF, 0xD8, 0xFF, 0xD9] : List Byte) = [0xFF, 0xD8, 0xFF, 0xD9, 0x00] ↔
      4 = ([0xFF, 0xD8, 0xFF, 0xD9, 0x00] : List Byte).length) :=
  no_app1_output_is_scanned_input zeroHost [0xFF, 0xD8, 0xFF, 0xD9, 0x00]
    [0xFF, 0xD8, 0xFF, 0xD9] 4 (by decide) (by decide) (by decide)

/-- Claim C5, where the code differs. The filter is not idempotent on
`FF E1 00 06 45 78 69 66 | FF E1 00 08 45 78 69 66 00 00` when the memory after
the buffer holds zeros: the first pass keeps the first APP1 segment (declared
length 6) and drops the second, the second pass drops the kept segment, because
the six bytes compared with `EXIF_HEADER` extend two bytes past a segment of
declared length 6. -/
theorem second_pass_drops_more :
    scan zeroHost [0xFF, 0xE1, 0x00, 0x06, 0x45, 0x78, 0x69, 0x66,
        0xFF, 0xE1, 0x00, 0x08, 0x45, 0x78, 0x69, 0x66, 0x00, 0x00] =
      .ok [0xFF, 0xE1, 0x00, 0x06, 0x45, 0x78, 0x69, 0x66] 18 ∧
    scan zeroHost [0xFF, 0xE1, 0x00, 0x06, 0x45, 0x78, 0x69, 0x66] = .ok [] 8 := by
  decide

/-- Claim C6. When the scan meets, at a segment boundary `q`, a marker value
outside the recognized set, the loop is left by `goto error` on that marker;
processing the file fails, `main` returns 1 and the files are exactly as they
were, whatever had been copied to the output buffer before. -/
theorem unsupported_marker_aborts (h : Host) (data : List Byte) (q : Nat)
    (hq : q ∈ boundaries h data) (hm : rd16 h data q ∉ recognizedMarkers) :
    scan h data = .unsupported (rd16 h data q) ∧
    ∀ (fs : FS) (path : String), fs path = some data →
      processFile h fs path = none ∧ main h fs [path] = (fs, 1) := by
  have hs : scan h data = .unsupported (rd16 h data q) :=
    scanLoop_unsupported h data _ 0 q [] hq hm
  refine ⟨hs, fun fs path hf => ?_⟩
  have hlen : ¬ data.length = 0 := by
    have := (boundariesFrom_ge h data _ 0 q hq).2; omega
  have hp : processFile h fs path = none := by
    simp only [processFile, hf, if_neg hlen, hs]
  refine ⟨hp, ?_⟩
  simp [main, mainLoop, hp]

theorem unsupported_marker_aborts_witness :
    scan zeroHost [0xFF, 0xD8, 0xFF, 0xF0, 0x00, 0x02] =
      .unsupported (rd16 zeroHost [0xFF, 0xD8, 0xFF, 0xF0, 0x00, 0x02] 2) ∧
    ∀ (fs : FS) (path : String), fs path = some [0xFF, 0xD8, 0xFF, 0xF0, 0x00, 0x02] →
      processFile zeroHost fs path = none ∧ main zeroHost fs [path] = (fs, 1) :=
  unsupported_marker_aborts zeroHost [0xFF, 0xD8, 0xFF, 0xF0, 0x00, 0x02] 2
    (by decide) (by decide)

/-- Claim C7, where the code differs. On the 4-byte input `FF FE 00 10`, a comment
segment whose declared length 16 runs past the end of the buffer, the loop copies
the 18 bytes at offsets 0 .. 17: on every host the output has 18 bytes, more than
the input, and 14 of them are not bytes of the input. -/
theorem overlong_segment_output (h : Host) :
    scan h [0xFF, 0xFE, 0x00, 0x10] =
      .ok ([0xFF, 0xFE, 0x00, 0x10] ++ (List.range 14).map (fun k => h.beyond (4 + k))) 18 ∧
    ([0xFF, 0xFE, 0x00, 0x10] ++ (List.range 14).map (fun k => h.beyond (4 + k))).length = 18 ∧
    ([0xFF, 0xFE, 0x00, 0x10] : List Byte).length = 4 := by
  have r0 : rd16 h [0xFF, 0xFE, 0x00, 0x10] 0 = 0xFFFE := by
    simp only [rd16_eq, rd, List.getD_cons_zero, List.getD_cons_succ]; decide
  have r2 : rd16 h [0xFF, 0xFE, 0x00, 0x10] 2 = 0x10 := by
    simp only [rd16_eq, rd, List.getD_cons_zero, List.getD_cons_succ]; decide
  have hseg : segment h [0xFF, 0xFE, 0x00, 0x10] 0 = .brk 18 := by
    unfold segment
    simp only [r0, r2]
    rw [if_neg (by decide), if_pos (by decide)]
  refine ⟨?_, by simp, rfl⟩
  show scanLoop h _ 3 0 [] = _
  rw [scanLoop_brk h _ 2 [] (by decide) hseg, if_neg (by rw [r0]; decide),
    scanLoop_exit h _ 1 _ (by decide)]
  rfl

/-- Claim C8, counterexample. On `FF D8 FF D9 00` the scan completes without
error and removes no APP1 segment, yet the output is one byte shorter than the
input: the byte after the EOI marker is not copied. -/
theorem length_difference_not_removed :
    scan zeroHost [0xFF, 0xD8, 0xFF, 0xD9, 0x00] = .ok [0xFF, 0xD8, 0xFF, 0xD9] 4 ∧
    removedExifBytes zeroHost [0xFF, 0xD8, 0xFF, 0xD9, 0x00] = 0 ∧
    ([0xFF, 0xD8, 0xFF, 0xD9, 0x00] : List Byte).length -
        ([0xFF, 0xD8, 0xFF, 0xD9] : List Byte).length ≠
      removedExifBytes zeroHost [0xFF, 0xD8, 0xFF, 0xD9, 0x00] := by
  decide

/-- Claim C8, amended. When the scan completes without error with the cursor `p`
inside the buffer, and every APP1 segment it meets declares a length of at least
6, the input length minus the output length is the sum of the span lengths
(2 marker bytes + declared length) of the removed EXIF APP1 segments plus the
number of input bytes from `p` on (the bytes after an EOI marker, or a last
single byte), which are not copied either. -/
theorem removed_bytes_count (h : Host) (data out : List Byte) (p : Nat)
    (hs : scan h data = .ok out p)
    (hlen : ∀ q ∈ boundaries h data,
      rd16 h data q = MARKER_APPN + 1 → 6 ≤ rd16 h data (q + 2))
    (hp : p ≤ data.length) :
    data.length - out.length = removedExifBytes h data + (data.length - p) := by
  obtain ⟨-, b⟩ := scanLoop_count h data _ 0 [] out p hs hlen
  have e : out.length + removedExifBytes h data = p := by
    simpa [removedExifBytes, boundaries] using b
  omega

theorem removed_bytes_count_witness :
    ([0xFF, 0xD8, 0xFF, 0xE1, 0x00, 0x08, 0x45, 0x78, 0x69, 0x66, 0x00, 0x00,
        0xFF, 0xD9, 0x07] : List Byte).length - ([0xFF, 0xD8, 0xFF, 0xD9] : List Byte).length =
      removedExifBytes zeroHost [0xFF, 0xD8, 0xFF, 0xE1, 0x00, 0x08, 0x45, 0x78, 0x69, 0x66,
        0x00, 0x00, 0xFF, 0xD9, 0x07] +
      (([0xFF, 0xD8, 0xFF, 0xE1, 0x00, 0x08, 0x45, 0x78, 0x69, 0x66, 0x00, 0x00,
        0xFF, 0xD9, 0x07] : List Byte).length - 14) :=
  removed_bytes_count zeroHost
    [0xFF, 0xD8, 0xFF, 0xE1, 0x00, 0x08, 0x45, 0x78, 0x69, 0x66, 0x00, 0x00, 0xFF, 0xD9, 0x07]
    [0xFF, 0xD8, 0xFF, 0xD9] 14 (by decide) (by decide) (by decide)

/-- Claim C9. After a start-of-scan marker (read at `old`, so the run starts at
`old + 2`) the entropy-coded run extends to the first position `i` where byte `i`
is `0xFF` and byte `i + 1` is neither `0x00` nor in `0xD0 .. 0xD7`, or to the end
of the buffer when there is no such position; the bytes from the marker up to
(not including) `i` are appended to the output unchanged and the loop goes on
with the cursor at `i`. -/
theorem sos_run_extent (h : Host) (data : List Byte) (fuel old : Nat) (out : List Byte)
    (hin : old + 2 ≤ data.length) (hm : rd16 h data old = MARKER_SOS) :
    ∃ i, old + 2 ≤ i ∧ i ≤ data.length ∧
      (∀ j, old + 2 ≤ j → j < i → markerAt data j = false) ∧
      (markerAt data i = true ∨ i = data.length) ∧
      segment h data old = .brk i ∧
      scanLoop h data (fuel + 1) old out =
        scanLoop h data fuel i (out ++ (data.drop old).take (i - old)) := by
  have hseg : segment h data old =
      .brk (sosScan h data (data.length - (old + 2)) (old + 2)) := by
    rcases segment_cases h data old with c | c | c | c | c | c | c
    · rw [hm] at c; exact absurd c.1 (by decide)
    · rw [hm] at c; exact absurd c.1 (by decide)
    · exact c.2
    · rw [hm] at c; exact absurd c.1 (by decide)
    · rw [hm] at c; exact absurd c.1 (by decide)
    · rw [hm] at c; exact absurd c.1 (by decide)
    · exact absurd hm c.2.2.1
  obtain ⟨a, b⟩ := sosScan_spec h data (data.length - (old + 2)) (old + 2) (Nat.le_refl _) hin
  have hle := sosScan_le h data (data.length - (old + 2)) (old + 2) hin
  refine ⟨_, sosScan_ge _ _ _ _, hle, a, b, hseg, ?_⟩
  rw [scanLoop_brk h data fuel out hin hseg, if_neg (by rw [hm]; decide),
    span_eq_take_drop h data hle]

theorem sos_run_extent_witness :
    ∃ i, 0 + 2 ≤ i ∧
      i ≤ ([0xFF, 0xDA, 0x00, 0xFF, 0x00, 0xFF, 0xD3, 0x01, 0xFF, 0xD9, 0x07] : List Byte).length ∧
      (∀ j, 0 + 2 ≤ j → j < i →
        markerAt [0xFF, 0xDA, 0x00, 0xFF, 0x00, 0xFF, 0xD3, 0x01, 0xFF, 0xD9, 0x07] j = false) ∧
      (markerAt [0xFF, 0xDA, 0x00, 0xFF, 0x00, 0xFF, 0xD3, 0x01, 0xFF, 0xD9, 0x07] i = true ∨
        i = ([0xFF, 0xDA, 0x00, 0xFF, 0x00, 0xFF, 0xD3, 0x01, 0xFF, 0xD9, 0x07] : List Byte).length) ∧
      segment zeroHost [0xFF, 0xDA, 0x00, 0xFF, 0x00, 0xFF, 0xD3, 0x01, 0xFF, 0xD9, 0x07] 0 =
        .brk i ∧
      scanLoop zeroHost [0xFF, 0xDA, 0x00, 0xFF, 0x00, 0xFF, 0xD3, 0x01, 0xFF, 0xD9, 0x07]
          (3 + 1) 0 [] =
        scanLoop zeroHost [0xFF, 0xDA, 0x00, 0xFF, 0x00, 0xFF, 0xD3, 0x01, 0xFF, 0xD9, 0x07] 3 i
          ([] ++ (List.drop 0
            [0xFF, 0xDA, 0x00, 0xFF, 0x00, 0xFF, 0xD3, 0x01, 0xFF, 0xD9, 0x07]).take (i - 0)) :=
  sos_run_extent zeroHost [0xFF, 0xDA, 0x00, 0xFF, 0x00, 0xFF, 0xD3, 0x01, 0xFF, 0xD9, 0x07]
    3 0 [] (by decide) (by decide)

/-- Claim C10. When the scan meets an EOI marker at a segment boundary `q`, it
succeeds with the cursor right after that marker, the output ends with the two
bytes `FF D9`, and the output is the same whatever follows the EOI marker in the
buffer and whatever the host holds: the bytes after offset `q + 2` are neither
copied nor looked at. -/
theorem eoi_ends_scan (h : Host) (data : List Byte) (q : Nat)
    (hq : q ∈ boundaries h data) (hm : rd16 h data q = MARKER_EOI) :
    ∃ out, scan h data = .ok out (q + 2) ∧ List.IsSuffix [0xFF, 0xD9] out ∧
      out.Sublist (data.take (q + 2)) ∧
      ∀ (h' : Host) (tail : List Byte),
        scan h' (data.take (q + 2) ++ tail) = .ok out (q + 2) := by
  have hn := (boundariesFrom_ge h data _ 0 q hq).2
  obtain ⟨out, h1, -, h3⟩ := scanLoop_eoi h h data data q (fun _ _ => rfl) hn hm _ 0 [] hq
  refine ⟨out, h1, h3, ?_, fun h' tail => ?_⟩
  · obtain ⟨-, s, e, hsub⟩ := scanLoop_sublist h data _ 0 [] out (q + 2) h1
    rw [List.nil_append] at e
    rw [e]
    simpa [span_eq_take_drop h data hn] using hsub
  · have hag : ∀ i, i < q + 2 → rd h' (data.take (q + 2) ++ tail) i = rd h data i := by
      intro i hi
      have hl : i < (data.take (q + 2)).length := by rw [List.length_take]; omega
      rw [rd_of_lt h data (by omega), rd_of_lt h' _ (by rw [List.length_append]; omega),
        List.getElem_append_left hl, List.getElem_take]
    have hn' : q + 2 ≤ (data.take (q + 2) ++ tail).length := by
      rw [List.length_append, List.length_take]; omega
    obtain ⟨out', e1, e2, -⟩ :=
      scanLoop_eoi h h' data (data.take (q + 2) ++ tail) q hag hn' hm _ 0 [] hq
    have : out' = out := by
      have := e1.symm.trans h1
      cases this; rfl
    subst this
    exact scan_eq_of_scanLoop h' _ _ e2

theorem eoi_ends_scan_witness :
    ∃ out, scan zeroHost [0xFF, 0xD8, 0xFF, 0xD9, 0xFF, 0xE1, 0x00, 0x08, 0x45, 0x78, 0x69,
          0x66, 0x00, 0x00, 0xFF, 0xF0] = .ok out (2 + 2) ∧
      List.IsSuffix [0xFF, 0xD9] out ∧
      out.Sublist (List.take (2 + 2) [0xFF, 0xD8, 0xFF, 0xD9, 0xFF, 0xE1, 0x00, 0x08, 0x45,
        0x78, 0x69, 0x66, 0x00, 0x00, 0xFF, 0xF0]) ∧
      ∀ (h' : Host) (tail : List Byte),
        scan h' (List.take (2 + 2) [0xFF, 0xD8, 0xFF, 0xD9, 0xFF, 0xE1, 0x00, 0x08, 0x45, 0x78,
          0x69, 0x66, 0x00, 0x00, 0xFF, 0xF0] ++ tail) = .ok out (2 + 2) :=
  eoi_ends_scan zeroHost [0xFF, 0xD8, 0xFF, 0xD9, 0xFF, 0xE1, 0x00, 0x08, 0x45, 0x78, 0x69,
    0x66, 0x00, 0x00, 0xFF, 0xF0] 2 (by decide) (by decide)

/-- Claim C11. Segment extents by shape, for the round that starts at `old`: on a
marker among SOI, RST0-RST7 and EOI the loop consumes exactly 2 bytes; on a marker
among SOF0, SOF2, DHT, DQT, DRI, APP0, APP2-APP15 and COM followed by the
big-endian length `L` (first length byte times 256 plus the second), with the span
of `2 + L` bytes inside the buffer, it consumes exactly `2 + L` bytes.  In both
cases exactly the consumed bytes are appended to the output (after EOI the loop
ends, otherwise it goes on right after the segment). -/
theorem segment_extents (h : Host) (data : List Byte) (fuel old : Nat) (out : List Byte)
    (hin : old + 2 ≤ data.length) :
    (rd16 h data old ∈ noPayloadMarkers →
      segment h data old = .brk (old + 2) ∧
      scanLoop h data (fuel + 1) old out =
        if rd16 h data old = MARKER_EOI then .ok (out ++ (data.drop old).take 2) (old + 2)
        else scanLoop h data fuel (old + 2) (out ++ (data.drop old).take 2)) ∧
    (rd16 h data old ∈ lengthMarkers →
      ∀ L, L = (rd h data (old + 2)).val * 256 + (rd h data (old + 3)).val →
      old + 2 + L ≤ data.length →
      segment h data old = .brk (old + 2 + L) ∧
      scanLoop h data (fuel + 1) old out =
        scanLoop h data fuel (old + 2 + L) (out ++ (data.drop old).take (2 + L))) := by
  constructor
  · intro hm
    have hseg := segment_noPayload h data hm
    refine ⟨hseg, ?_⟩
    rw [scanLoop_brk h data fuel out hin hseg, span_eq_take_drop h data hin]
    have : old + 2 - old = 2 := by omega
    rw [this]
  · intro hm L hL hspan
    have hseg := segment_length h data hm
    have e : rd16 h data (old + 2) = L := by rw [rd16_eq, hL]
    rw [e] at hseg
    refine ⟨hseg, ?_⟩
    have hne : ¬ rd16 h data old = MARKER_EOI := by
      intro c; rw [c] at hm; exact absurd hm (by decide)
    rw [scanLoop_brk h data fuel out hin hseg, if_neg hne, span_eq_take_drop h data hspan]
    have : old + 2 + L - old = 2 + L := by omega
    rw [this]

theorem segment_extents_witness :
    segment zeroHost [0xFF, 0xD8, 0xFF, 0xFE, 0x00, 0x04, 0x41, 0x42, 0xFF, 0xD9] 2 =
        .brk (2 + 2 + 4) ∧
      scanLoop zeroHost [0xFF, 0xD8, 0xFF, 0xFE, 0x00, 0x04, 0x41, 0x42, 0xFF, 0xD9] (3 + 1) 2
          [0xFF, 0xD8] =
        scanLoop zeroHost [0xFF, 0xD8, 0xFF, 0xFE, 0x00, 0x04, 0x41, 0x42, 0xFF, 0xD9] 3
          (2 + 2 + 4)
          ([0xFF, 0xD8] ++
            (List.drop 2 [0xFF, 0xD8, 0xFF, 0xFE, 0x00, 0x04, 0x41, 0x42, 0xFF, 0xD9]).take
              (2 + 4)) :=
  (segment_extents zeroHost [0xFF, 0xD8, 0xFF, 0xFE, 0x00, 0x04, 0x41, 0x42, 0xFF, 0xD9] 3 2
    [0xFF, 0xD8] (by decide)).2 (by decide) 4 (by decide) (by decide)

/-- Claim C12. For every pair of bytes `b0`, `b1` stored consecutively and for both
host byte orders, `align16` applied to the host-order 16-bit load of the two bytes
returns `256 * b0 + b1`, also when `b0 = b1`; the result is below `65536`. -/
theorem align16_reads_big_endian (littleEndian : Bool) (b0 b1 : Byte) :
    align16 littleEndian (load16 littleEndian b0 b1) = 256 * b0.val + b1.val ∧
    align16 littleEndian (load16 littleEndian b0 b0) = 256 * b0.val + b0.val ∧
    align16 littleEndian (load16 littleEndian b0 b1) < 65536 := by
  have e := align16_load16 littleEndian b0 b1
  have e0 := align16_load16 littleEndian b0 b0
  refine ⟨by omega, by omega, ?_⟩
  have := b0.isLt; have := b1.isLt
  omega

/-- Claim C13, counterexample. With no file at all the run returns status 1
although no file fails; and on the arguments `a.jpg b.jpg a.jpg`, where `b.jpg`
is the first file that fails, the run returns status 1 but `a.jpg`, which is
also a later file, does not keep its original contents: it holds the filtered
output `FF D8 FF D9` written when it was processed first. -/
theorem batch_edge_cases :
    (main zeroHost sampleFS []).2 = 1 ∧
    (processFile zeroHost sampleFS "a.jpg").isSome = true ∧
    (processFile zeroHost sampleFS "b.jpg").isNone = true ∧
    (main zeroHost sampleFS ["a.jpg", "b.jpg", "a.jpg"]).2 = 1 ∧
    (main zeroHost sampleFS ["a.jpg", "b.jpg", "a.jpg"]).1 "a.jpg" =
      some [0xFF, 0xD8, 0xFF, 0xD9] ∧
    (main zeroHost sampleFS ["a.jpg", "b.jpg", "a.jpg"]).1 "a.jpg" ≠ sampleFS "a.jpg" := by
  decide

/-- Claim C13, amended. Batch processing over a non-empty list of pairwise
distinct paths taken in argument order, where a file fails when processing its
original contents hits a fatal error (it is missing, or the scan meets an
unsupported marker).  If no file fails the status is zero and every non-empty
file of the list holds its filtered output.  If `path` is the first file that
fails, the status is 1, `path` and every later file keep their original contents,
and every earlier non-empty file holds its filtered output. -/
theorem batch_processing (h : Host) (fs : FS) (args : List String)
    (hne : args ≠ []) (hnd : args.Nodup) :
    ((∀ p ∈ args, (processFile h fs p).isSome = true) →
      (main h fs args).2 = 0 ∧
      ∀ p ∈ args, ∀ data, fs p = some data → data ≠ [] →
        ∃ out q, scan h data = .ok out q ∧ (main h fs args).1 p = some out) ∧
    (∀ pre path post, args = pre ++ path :: post →
      (∀ p ∈ pre, (processFile h fs p).isSome = true) →
      (processFile h fs path).isNone = true →
      (main h fs args).2 = 1 ∧
      (∀ p, p = path ∨ p ∈ post → (main h fs args).1 p = fs p) ∧
      ∀ p ∈ pre, ∀ data, fs p = some data → data ≠ [] →
        ∃ out q, scan h data = .ok out q ∧ (main h fs args).1 p = some out) := by
  have hmain : main h fs args = mainLoop h fs args := by
    unfold main
    have : ¬ args.length + 1 ≤ 1 := by
      have := List.length_pos.2 hne; omega
    rw [if_neg this]
  rw [hmain]
  constructor
  · intro hok
    have e := mainLoop_append h args fs [] hnd hok
    rw [List.append_nil] at e
    rw [e]
    refine ⟨rfl, fun p hp data hd hdne => ?_⟩
    obtain ⟨out, q, hs, hf⟩ := filterFile_of_isSome h fs p data (hok p hp) hd hdne
    exact ⟨out, q, hs, by simp only [mainLoop]; rw [filtered_of_mem h fs args p hp, hf]⟩
  · intro pre path post hargs hok hfail
    subst hargs
    have hndpre : pre.Nodup := (List.nodup_append.1 hnd).1
    have hdisj : ∀ p, p = path ∨ p ∈ post → p ∉ pre := by
      intro p hp hmem
      have := (List.nodup_append.1 hnd).2.2
      have hin : p ∈ path :: post := by
        rcases hp with e | e
        · rw [e]; exact List.mem_cons_self _ _
        · exact List.mem_cons_of_mem _ e
      exact this hmem hin
    have e := mainLoop_append h pre fs (path :: post) hndpre hok
    have hf' : processFile h (filtered h fs pre) path = none := by
      have c := processFile_isSome_congr h fs (filtered h fs pre) path
        (filtered_of_not_mem h fs pre path (hdisj path (Or.inl rfl)))
      rw [Option.isNone_iff_eq_none] at hfail
      rw [hfail] at c
      cases hc : processFile h (filtered h fs pre) path with
      | none => rfl
      | some x => rw [hc] at c; cases c
    have e2 : mainLoop h fs (pre ++ path :: post) = (filtered h fs pre, 1) := by
      rw [e]; simp only [mainLoop, hf']
    rw [e2]
    refine ⟨rfl, fun p hp => filtered_of_not_mem h fs pre p (hdisj p hp),
      fun p hp data hd hdne => ?_⟩
    obtain ⟨out, q, hs, hf⟩ := filterFile_of_isSome h fs p data (hok p hp) hd hdne
    exact ⟨out, q, hs, (filtered_of_mem h fs pre p hp).trans hf⟩

theorem batch_processing_witness :
    (main zeroHost sampleFS ["a.jpg", "b.jpg", "c.jpg"]).2 = 1 ∧
    (∀ p, p = "b.jpg" ∨ p ∈ ["c.jpg"] →
      (main zeroHost sampleFS ["a.jpg", "b.jpg", "c.jpg"]).1 p = sampleFS p) ∧
    ∀ p ∈ ["a.jpg"], ∀ data, sampleFS p = some data → data ≠ [] →
      ∃ out q, scan zeroHost data = .ok out q ∧
        (main zeroHost sampleFS ["a.jpg", "b.jpg", "c.jpg"]).1 p = some out :=
  (batch_processing zeroHost sampleFS ["a.jpg", "b.jpg", "c.jpg"] (by decide) (by decide)).2
    ["a.jpg"] "b.jpg" ["c.jpg"] rfl (by decide) (by decide)

/-- Claim C14, where the code differs. On the 4-byte input `FF FE 00 10` the round
at offset 0 reads the declared length 16 and sets the cursor to 18, past the end
of the buffer, on every host; the loop then ends with the cursor at 18. -/
theorem cursor_passes_end (h : Host) :
    segment h [0xFF, 0xFE, 0x00, 0x10] 0 = .brk 18 ∧
    (∃ out, scan h [0xFF, 0xFE, 0x00, 0x10] = .ok out 18) ∧
    ([0xFF, 0xFE, 0x00, 0x10] : List Byte).length < 18 := by
  have r0 : rd16 h [0xFF, 0xFE, 0x00, 0x10] 0 = 0xFFFE := by
    simp only [rd16_eq, rd, List.getD_cons_zero, List.getD_cons_succ]; decide
  have r2 : rd16 h [0xFF, 0xFE, 0x00, 0x10] 2 = 0x10 := by
    simp only [rd16_eq, rd, List.getD_cons_zero, List.getD_cons_succ]; decide
  have hseg : segment h [0xFF, 0xFE, 0x00, 0x10] 0 = .brk 18 := by
    rw [segment_length h _ (by rw [r0]; decide), r2]
  refine ⟨hseg, ⟨[] ++ span h [0xFF, 0xFE, 0x00, 0x10] 0 18, ?_⟩, by decide⟩
  show scanLoop h _ 3 0 [] = _
  rw [scanLoop_brk h _ 2 [] (by decide) hseg, if_neg (by rw [r0]; decide),
    scanLoop_exit h _ 1 _ (by decide)]

/-- Claim C15, counterexample. In `FF DA | 00 04 FF D9 | 11 22 | FF D9` the length
field after the start-of-scan marker declares a scan header of 4 bytes, which
holds the pair `FF D9` at offset 4; the segment ends at offset 4, inside the
header, and the loop then takes that pair for the EOI marker and stops. -/
theorem scan_header_ends_segment :
    rd16 zeroHost [0xFF, 0xDA, 0x00, 0x04, 0xFF, 0xD9, 0x11, 0x22, 0xFF, 0xD9] 0 = MARKER_SOS ∧
    rd16 zeroHost [0xFF, 0xDA, 0x00, 0x04, 0xFF, 0xD9, 0x11, 0x22, 0xFF, 0xD9] 2 = 4 ∧
    segment zeroHost [0xFF, 0xDA, 0x00, 0x04, 0xFF, 0xD9, 0x11, 0x22, 0xFF, 0xD9] 0 = .brk 4 ∧
    scan zeroHost [0xFF, 0xDA, 0x00, 0x04, 0xFF, 0xD9, 0x11, 0x22, 0xFF, 0xD9] =
      .ok [0xFF, 0xDA, 0x00, 0x04, 0xFF, 0xD9] 6 := by
  decide

/-- Claim C15, amended. For a start-of-scan segment met at `old`, whose length
field declares `L` bytes that lie inside the buffer, marker-candidate detection
begins right after the marker, at offset `old + 2`: the length field and the scan
header are scanned like entropy-coded data.  The segment ends at `i`, the first
pair `FF xx` (`xx` not `00` and not `D0 .. D7`) at or after `old + 2`, or the end
of the buffer when there is none: no pair begins in `[old + 2, i)`, a first pair
at `j` gives `i = j`, and the bytes from the marker up to `i` are appended to the
output.  So the `L` header bytes are consumed as part of the segment exactly when
no such pair begins among them, and a pair that begins among them ends the
segment at the first such pair, inside the header. -/
theorem sos_header_is_scanned (h : Host) (data : List Byte) (old : Nat)
    (hin : old + 2 ≤ data.length) (hm : rd16 h data old = MARKER_SOS)
    (hspan : old + 2 + rd16 h data (old + 2) ≤ data.length) :
    ∃ i, segment h data old = .brk i ∧ old + 2 ≤ i ∧
      (∀ j, old + 2 ≤ j → markerAt data j = true → i ≤ j) ∧
      (old + 2 + rd16 h data (old + 2) ≤ i ↔
        ∀ j, old + 2 ≤ j → j < old + 2 + rd16 h data (old + 2) → markerAt data j = false) ∧
      i ≤ data.length ∧
      (markerAt data i = true ∨ i = data.length) ∧
      (∀ j, old + 2 ≤ j → j < i → markerAt data j = false) ∧
      (∀ j, old + 2 ≤ j → markerAt data j = true →
        (∀ j', old + 2 ≤ j' → j' < j → markerAt data j' = false) → i = j) ∧
      (∀ j, old + 2 ≤ j → j < old + 2 + rd16 h data (old + 2) → markerAt data j = true →
        i < old + 2 + rd16 h data (old + 2) ∧ markerAt data i = true) ∧
      (∀ (fuel : Nat) (out : List Byte), scanLoop h data (fuel + 1) old out =
        scanLoop h data fuel i (out ++ (data.drop old).take (i - old))) := by
  obtain ⟨a, b⟩ := sosScan_spec h data (data.length - (old + 2)) (old + 2) (Nat.le_refl _) hin
  have hge := sosScan_ge h data (data.length - (old + 2)) (old + 2)
  have hle := sosScan_le h data (data.length - (old + 2)) (old + 2) hin
  have hseg := segment_sos h data hm
  have hfirst : ∀ j, old + 2 ≤ j → markerAt data j = true →
      sosScan h data (data.length - (old + 2)) (old + 2) ≤ j := by
    intro j hj hmk
    by_contra hc
    have := a j hj (by omega)
    rw [this] at hmk; cases hmk
  refine ⟨_, hseg, hge, hfirst, ?_, hle, b, a, ?_, ?_, ?_⟩
  · constructor
    · intro hle j hj hjl
      exact a j hj (by omega)
    · intro hall
      by_contra hc
      have hlt : sosScan h data (data.length - (old + 2)) (old + 2) <
          old + 2 + rd16 h data (old + 2) := by omega
      rcases b with b | b
      · rw [hall _ hge hlt] at b; cases b
      · omega
  · intro j hj hmk hbefore
    have h1 := hfirst j hj hmk
    rcases Nat.lt_or_ge (sosScan h data (data.length - (old + 2)) (old + 2)) j with c | c
    · rcases b with b | b
      · rw [hbefore _ hge c] at b; cases b
      · have hj2 : markerAt data j = false := markerAt_false_of_end data (by omega)
        rw [hj2] at hmk; cases hmk
    · omega
  · intro j hj hjl hmk
    have h1 := hfirst j hj hmk
    refine ⟨by omega, ?_⟩
    rcases b with b | b
    · exact b
    · omega
  · intro fuel out
    rw [scanLoop_brk h data fuel out hin hseg, if_neg (by rw [hm]; decide),
      span_eq_take_drop h data hle]

theorem sos_header_is_scanned_witness :
    ∃ i, segment zeroHost sosSample 0 = .brk i ∧ 0 + 2 ≤ i ∧
      (∀ j, 0 + 2 ≤ j → markerAt sosSample j = true → i ≤ j) ∧
      (0 + 2 + rd16 zeroHost sosSample (0 + 2) ≤ i ↔
        ∀ j, 0 + 2 ≤ j → j < 0 + 2 + rd16 zeroHost sosSample (0 + 2) →
          markerAt sosSample j = false) ∧
      i ≤ sosSample.length ∧
      (markerAt sosSample i = true ∨ i = sosSample.length) ∧
      (∀ j, 0 + 2 ≤ j → j < i → markerAt sosSample j = false) ∧
      (∀ j, 0 + 2 ≤ j → markerAt sosSample j = true →
        (∀ j', 0 + 2 ≤ j' → j' < j → markerAt sosSample j' = false) → i = j) ∧
      (∀ j, 0 + 2 ≤ j → j < 0 + 2 + rd16 zeroHost sosSample (0 + 2) → markerAt sosSample j = true →
        i < 0 + 2 + rd16 zeroHost sosSample (0 + 2) ∧ markerAt sosSample i = true) ∧
      (∀ (fuel : Nat) (out : List Byte), scanLoop zeroHost sosSample (fuel + 1) 0 out =
        scanLoop zeroHost sosSample fuel i (out ++ (List.drop 0 sosSample).take (i - 0))) :=
  sos_header_is_scanned zeroHost sosSample 0 (by decide) (by decide) (by decide)

/-- Claim C16, where the code differs. The 8-byte input `FF E1 00 06 45 78 69 66`
is one APP1 segment of declared length 6 whose span of 8 bytes is the whole
buffer, yet the result depends on the two bytes after the buffer: the segment is
dropped where they are `00 00` and kept where they are `01 01`.  The six bytes
compared with `EXIF_HEADER` are those at offsets 4 .. 9; offsets 8 and 9 lie
outside the segment and outside the buffer. -/
theorem exif_compare_reads_outside :
    (∀ q ∈ boundaries zeroHost [0xFF, 0xE1, 0x00, 0x06, 0x45, 0x78, 0x69, 0x66],
      2 ≤ rd16 zeroHost [0xFF, 0xE1, 0x00, 0x06, 0x45, 0x78, 0x69, 0x66] (q + 2) ∧
      q + 2 + rd16 zeroHost [0xFF, 0xE1, 0x00, 0x06, 0x45, 0x78, 0x69, 0x66] (q + 2) ≤
        ([0xFF, 0xE1, 0x00, 0x06, 0x45, 0x78, 0x69, 0x66] : List Byte).length) ∧
    scan zeroHost [0xFF, 0xE1, 0x00, 0x06, 0x45, 0x78, 0x69, 0x66] = .ok [] 8 ∧
    scan onesHost [0xFF, 0xE1, 0x00, 0x06, 0x45, 0x78, 0x69, 0x66] =
      .ok [0xFF, 0xE1, 0x00, 0x06, 0x45, 0x78, 0x69, 0x66] 8 := by
  decide

/-- Claim C17. Progress and termination, on every input buffer: a round of the
segment loop that does not abort moves the cursor by at least 2 bytes, whatever
the declared length and whether the segment is copied or dropped; a round of the
inner entropy-run loop either leaves it or moves the cursor by 1, and
`data.length - ptr` rounds are all it takes; the segment loop runs its body at
most `data.length / 2` times, so `scan` ends within its `data.length / 2 + 1`
rounds and more rounds change nothing. -/
theorem scan_progress_and_termination (h : Host) (data : List Byte) :
    (∀ old p, segment h data old = .brk p ∨ segment h data old = .cont p → old + 2 ≤ p) ∧
    (∀ fuel ptr, sosScan h data (fuel + 1) ptr = ptr ∨
      sosScan h data (fuel + 1) ptr = sosScan h data fuel (ptr + 1)) ∧
    (∀ ptr k, sosScan h data (data.length - ptr + k) ptr =
      sosScan h data (data.length - ptr) ptr) ∧
    (∀ fuel, (boundariesFrom h data fuel 0).length ≤ data.length / 2) ∧
    scan h data ≠ .timeout ∧
    (∀ k, scanLoop h data (data.length / 2 + 1 + k) 0 [] = scan h data) := by
  refine ⟨?_, sosScan_step h data, fun ptr k => sosScan_fuel h data _ k ptr (Nat.le_refl _),
    ?_, scan_ne_timeout h data, fun k => ?_⟩
  · intro old p hs
    rcases hs with e | e
    · exact segment_brk_gt h data e
    · exact segment_cont_gt h data e
  · intro fuel
    have := boundariesFrom_length h data fuel 0
    omega
  · exact scanLoop_fuel_add h data _ k 0 [] (scan_ne_timeout h data)

end Rmexif
